import Mathlib

set_option linter.unreachableTactic false
set_option linter.unusedTactic false

/-!
Shallow embedding of the voxel grid ray-traversal engine of the repository
(src/rendering/raytrace.rs: RaytraceChunk, RayHit, Face, and the math Ray3
type from src/math/ray.rs), together with proofs checking the claims of the
specification against it.

Modelling conventions:
- f32 arithmetic is idealized as exact rational arithmetic.  The IEEE special
  values that the entry-clipping code genuinely produces (infinities from
  division by zero, nan) are modelled by the carrier EF below, with the IEEE
  comparison rules and the Rust f32 max and min rules (nan is ignored).
  The IEEE negative zero has no rational counterpart; a zero direction
  component behaves as IEEE plus zero (glam signum maps plus zero to 1.0).
- i32 values are modelled as integers; the cell stepping wraps modulo 2 to
  the 32, matching release-mode two complement wraparound, and float to int
  casts saturate, matching Rust as-cast semantics.
- u32 block identifiers are modelled as naturals (callers supply values
  below 2 to the 32).
- The file written by save and read by load is modelled as the list of its
  bytes; the io plumbing (paths, buffering) is abstracted away.
- The unbounded traversal loop is modelled fuel-indexed (ddaLoop); raycast
  runs it with a fuel amount proved sufficient below, so the model agrees
  with the source loop whenever the source loop terminates, and the
  termination claim is settled by the fuel-sufficiency theorem.
-/

/-- Idealized f32 value as produced by the raycast arithmetic: an exact
rational, one of the two infinities, or nan. -/
inductive EF where
  | nan
  | ninf
  | fin (q : ℚ)
  | pinf
deriving DecidableEq

/-- IEEE comparison a greater-or-equal b; any comparison involving nan is
false (this is the f32 `>=` the source uses on possibly-infinite values). -/
def EF.ge : EF → EF → Bool
  | .nan, _ => false
  | _, .nan => false
  | .pinf, _ => true
  | .ninf, .ninf => true
  | .ninf, _ => false
  | .fin _, .ninf => true
  | .fin _, .pinf => false
  | .fin a, .fin b => decide (b ≤ a)

/-- IEEE comparison a less-or-equal b; any comparison involving nan is
false (the f32 `<=` of the traversal loop). -/
def EF.le : EF → EF → Bool
  | .nan, _ => false
  | _, .nan => false
  | _, .pinf => true
  | .ninf, _ => true
  | .pinf, .ninf => false
  | .pinf, .fin _ => false
  | .fin _, .ninf => false
  | .fin a, .fin b => decide (a ≤ b)

/-- Rust f32::max: if one operand is nan the other is returned. -/
def EF.max : EF → EF → EF
  | .nan, b => b
  | a, .nan => a
  | .pinf, _ => .pinf
  | _, .pinf => .pinf
  | .ninf, b => b
  | a, .ninf => a
  | .fin a, .fin b => .fin (Max.max a b)

/-- Rust f32::min: if one operand is nan the other is returned. -/
def EF.min : EF → EF → EF
  | .nan, b => b
  | a, .nan => a
  | .ninf, _ => .ninf
  | _, .ninf => .ninf
  | .pinf, b => b
  | a, .pinf => a
  | .fin a, .fin b => .fin (Min.min a b)

/-- IEEE division of two finite values: finite quotient when the divisor is
nonzero, otherwise a signed infinity (or nan for zero over zero). -/
def EF.fdiv (a b : ℚ) : EF :=
  if b ≠ 0 then .fin (a / b)
  else if 0 < a then .pinf
  else if a < 0 then .ninf
  else .nan

/-- Adding a finite value to an idealized f32 (infinities and nan absorb). -/
def EF.addQ : EF → ℚ → EF
  | .fin a, q => .fin (a + q)
  | e, _ => e

/-- Vector of three idealized f32 components, modelling glam Vec3A. -/
structure Vec3A where
  x : ℚ
  y : ℚ
  z : ℚ
deriving DecidableEq

/-- Vector of three i32 components, modelling glam IVec3. -/
structure IVec3 where
  x : ℤ
  y : ℤ
  z : ℤ
deriving DecidableEq

/-- Vector of three EF components (per-axis clip distances, t-max values). -/
structure EVec3 where
  x : EF
  y : EF
  z : EF
deriving DecidableEq

/-- The ray type of src/math/ray.rs: an origin and a direction. -/
structure Ray3 where
  pos : Vec3A
  dir : Vec3A
deriving DecidableEq

/-- Ray3::point_on_ray: (self.dir * t) + self.pos, componentwise. -/
def Ray3.pointOnRay (r : Ray3) (t : ℚ) : Vec3A :=
  ⟨r.dir.x * t + r.pos.x, r.dir.y * t + r.pos.y, r.dir.z * t + r.pos.z⟩

/-- The Axis enum of raytrace.rs. -/
inductive Axis where
  | X
  | Y
  | Z
deriving DecidableEq

/-- The Face enum of raytrace.rs. -/
inductive Face where
  | PosX
  | PosY
  | PosZ
  | NegX
  | NegY
  | NegZ
deriving DecidableEq

/-- Face::axis. -/
def Face.axis : Face → Axis
  | .PosX => .X
  | .NegX => .X
  | .PosY => .Y
  | .NegY => .Y
  | .PosZ => .Z
  | .NegZ => .Z

/-- Face::normal: the unit normal of each axis-aligned face. -/
def Face.normal : Face → Vec3A
  | .PosX => ⟨1, 0, 0⟩
  | .PosY => ⟨0, 1, 0⟩
  | .PosZ => ⟨0, 0, 1⟩
  | .NegX => ⟨-1, 0, 0⟩
  | .NegY => ⟨0, -1, 0⟩
  | .NegZ => ⟨0, 0, -1⟩

/-- The RayHit result record of raytrace.rs. -/
structure RayHit where
  coord : IVec3
  id : ℕ
  face : Option Face
  distance : EF
deriving DecidableEq

/-- RayHit::hit_face. -/
def RayHit.hitFace (coord : IVec3) (distance : EF) (id : ℕ) (face : Face) : RayHit :=
  ⟨coord, id, some face, distance⟩

/-- RayHit::hit_cell. -/
def RayHit.hitCell (coord : IVec3) (id : ℕ) (distance : EF) : RayHit :=
  ⟨coord, id, none, distance⟩

/-- RayHit::get_hit_cell: the cell adjacent to the hit across the hit face
(unchanged when the hit has no face). -/
def RayHit.getHitCell (h : RayHit) : IVec3 :=
  match h.face with
  | some .NegX => ⟨h.coord.x - 1, h.coord.y, h.coord.z⟩
  | some .NegY => ⟨h.coord.x, h.coord.y - 1, h.coord.z⟩
  | some .NegZ => ⟨h.coord.x, h.coord.y, h.coord.z - 1⟩
  | some .PosX => ⟨h.coord.x + 1, h.coord.y, h.coord.z⟩
  | some .PosY => ⟨h.coord.x, h.coord.y + 1, h.coord.z⟩
  | some .PosZ => ⟨h.coord.x, h.coord.y, h.coord.z + 1⟩
  | none => h.coord

/-- Bit pattern of an i32 value: the two complement reinterpretation as u32
(`x as u32`). -/
def bits32 (x : ℤ) : ℕ := (x % (2 ^ 32)).toNat

/-- The bounds check value of RaytraceChunk::get and ::set: the i32 bitwise
or x | y | z reinterpreted as u32.  An i32 bitwise or has the bitwise or of
the two bit patterns as its bit pattern, so it is computed directly on the
patterns here. -/
def u32or3 (x y z : ℤ) : ℕ := (bits32 x ||| bits32 y) ||| bits32 z

/-- The flat backing-array index ((y << 12) | (z << 6) | x) as usize, again
computed on the bit patterns; get and set only reach it for coordinates
whose patterns are below 64, where it agrees with the i32 computation. -/
def flatIndex (x y z : ℤ) : ℕ := ((bits32 y) <<< 12 ||| (bits32 z) <<< 6) ||| bits32 x

/-- The RaytraceChunk grid: the dense 64 cubed backing array (modelled as a
function from flat indices, only indices below 64 cubed are ever used) and
the dirty flag. -/
structure RaytraceChunk where
  blocks : ℕ → ℕ
  needsWrite : Bool

/-- RaytraceChunk::new: all cells zero, dirty flag set. -/
def RaytraceChunk.new : RaytraceChunk :=
  ⟨fun _ => 0, true⟩

/-- RaytraceChunk::get: 0 when the u32 reinterpretation of x | y | z is at
least 64, otherwise the stored identifier. -/
def RaytraceChunk.get (c : RaytraceChunk) (x y z : ℤ) : ℕ :=
  if 64 ≤ u32or3 x y z then 0
  else c.blocks (flatIndex x y z)

/-- RaytraceChunk::set: no-op when the u32 reinterpretation of x | y | z is
at least 64, otherwise stores the identifier and marks the grid dirty. -/
def RaytraceChunk.set (c : RaytraceChunk) (x y z : ℤ) (id : ℕ) : RaytraceChunk :=
  if 64 ≤ u32or3 x y z then c
  else ⟨fun i => if i = flatIndex x y z then id else c.blocks i, true⟩

/-- Big-endian byte quadruple of a u32 value (u32::to_be_bytes). -/
def beBytes (v : ℕ) : List ℕ :=
  [v / 2 ^ 24 % 256, v / 2 ^ 16 % 256, v / 2 ^ 8 % 256, v % 256]

/-- u32::from_be_bytes. -/
def fromBeBytes (b0 b1 b2 b3 : ℕ) : ℕ :=
  ((b0 * 256 + b1) * 256 + b2) * 256 + b3

/-- The bytes RaytraceChunk::save writes for cells start, start+1, ...,
start+n-1: each cell as big-endian u32, in flat-index order. -/
def saveCells (c : RaytraceChunk) (start : ℕ) : ℕ → List ℕ
  | 0 => []
  | n + 1 => beBytes (c.blocks start) ++ saveCells c (start + 1) n

/-- The full byte content RaytraceChunk::save writes: all 64 cubed cells. -/
def saveBytes (c : RaytraceChunk) : List ℕ :=
  saveCells c 0 262144

/-- The io failure kind RaytraceChunk::load surfaces when read_exact runs
out of data. -/
inductive IOError where
  | unexpectedEof
deriving DecidableEq

/-- The read loop of RaytraceChunk::load: reads n cells of 4 bytes each from
the byte stream into the backing array starting at index start, failing with
unexpected end of data when fewer than 4 bytes remain. -/
def loadCells (bl : ℕ → ℕ) (start : ℕ) : ℕ → List ℕ → Except IOError ((ℕ → ℕ) × List ℕ)
  | 0, bytes => .ok (bl, bytes)
  | n + 1, b0 :: b1 :: b2 :: b3 :: rest =>
      loadCells (fun i => if i = start then fromBeBytes b0 b1 b2 b3 else bl i) (start + 1) n rest
  | _ + 1, _ => .error .unexpectedEof

/-- RaytraceChunk::load from a byte content: reads all 64 cubed cells and
marks the grid dirty on success. -/
def RaytraceChunk.load (c : RaytraceChunk) (bytes : List ℕ) : Except IOError RaytraceChunk :=
  match loadCells c.blocks 0 262144 bytes with
  | .ok (bl, _) => .ok ⟨bl, true⟩
  | .error e => .error e

/-- Componentwise glam signum as an i32 step (sign.as_ivec3()): 1 for a
nonnegative component (IEEE plus zero has positive sign), -1 for a negative
one.  Note the source step is never 0. -/
def signumQ (q : ℚ) : ℤ := if q < 0 then -1 else 1

/-- Rust f32 to i32 as-cast (saturating); the model value is always finite
so only the clamp matters. -/
def sat32 (x : ℤ) : ℤ := Max.max (-(2 ^ 31)) (Min.min (2 ^ 31 - 1) x)

/-- Two complement i32 wraparound of cell stepping arithmetic. -/
def wrap32 (x : ℤ) : ℤ := (x + 2 ^ 31) % 2 ^ 32 - 2 ^ 31

/-- glam fract: self - self.trunc() (truncation toward zero). -/
def qtrunc (q : ℚ) : ℚ := if 0 ≤ q then (⌊q⌋ : ℚ) else (⌈q⌉ : ℚ)

/-- Fractional part in the glam sense. -/
def qfract (q : ℚ) : ℚ := q - qtrunc q

/-- f32::MIN_POSITIVE, the smallest positive normal value, 2 to the -126. -/
def minPositive : ℚ := 1 / 2 ^ 126

/-- The calc_delta helper of raycast: 1.0 / mag.abs().max(MIN_POSITIVE). -/
def calcDelta (mag : ℚ) : ℚ := 1 / Max.max |mag| minPositive

/-- The calc_t_max helper of raycast: parametric distance from the working
origin to the next cell boundary on one axis.  The zero-step arm is kept
although the source signum never yields step 0. -/
def calcTmax (step : ℤ) (fract mag : ℚ) : EF :=
  if 0 < step then .fin ((1 - fract) / Max.max |mag| minPositive)
  else if step < 0 then .fin (fract / Max.max |mag| minPositive)
  else .pinf

/-- The outside test of raycast: any origin component below 0 or at least 64
(lt | ge, any()). -/
def outsideBox (p : Vec3A) : Bool :=
  (decide (p.x < 0) || decide (64 ≤ p.x)) ||
  (decide (p.y < 0) || decide (64 ≤ p.y)) ||
  (decide (p.z < 0) || decide (64 ≤ p.z))

/-- The no-entry test of raycast: on some axis the origin is outside the
slab and the step points further away ((lt & neg_sign) | (ge & pos_sign),
any()). -/
def pointsAway (p : Vec3A) (step : IVec3) : Bool :=
  (decide (p.x < 0) && decide (step.x < 0)) || (decide (64 ≤ p.x) && decide (0 < step.x)) ||
  (decide (p.y < 0) && decide (step.y < 0)) || (decide (64 ≤ p.y) && decide (0 < step.y)) ||
  (decide (p.z < 0) && decide (step.z < 0)) || (decide (64 ≤ p.z) && decide (0 < step.z))

/-- One axis of the entry-clip distance pair computation (the match on
step + 1 in the outside branch of raycast).  The unreachable-arm of the
source match is modelled as nan. -/
def axisMinMax (step : ℤ) (pos dir : ℚ) : EF × EF :=
  match step + 1 with
  | 0 => (EF.fdiv (pos - 64) (-dir), EF.fdiv pos (-dir))
  | 1 => (.ninf, .pinf)
  | 2 => (EF.fdiv (-pos) dir, EF.fdiv (64 - pos) dir)
  | _ => (.nan, .nan)

/-- One axis of the box-exit distance computation in the inside (fast) path
of raycast. -/
def axisMaxIn (step : ℤ) (pos dir : ℚ) : EF :=
  match step + 1 with
  | 0 => EF.fdiv pos (-dir)
  | 1 => .pinf
  | 2 => EF.fdiv (64 - pos) dir
  | _ => .nan

/-- The face tuple of raycast for the x axis: the face a step on x enters
through. -/
def faceOfStepX (s : ℤ) : Face := if 0 ≤ s then .NegX else .PosX

/-- The face tuple of raycast for the y axis. -/
def faceOfStepY (s : ℤ) : Face := if 0 ≤ s then .NegY else .PosY

/-- The face tuple of raycast for the z axis. -/
def faceOfStepZ (s : ℤ) : Face := if 0 ≤ s then .NegZ else .PosZ

/-- RAY_PENETRATION, the fixed entry penetration constant 1e-5. -/
def rayPenetration : ℚ := 1 / 100000

/-- Everything raycast computes before the traversal loop that does not
depend on the grid or on max_distance: the step signs, the clip data
(delta_min, delta_max, delta_add), the advanced working origin, the entry
faces, the per-axis t deltas and initial t-max values, and the starting
cell. -/
structure PreState where
  step : IVec3
  deltaMin : Option EVec3
  deltaMax : EVec3
  deltaAdd : ℚ
  pos : Vec3A
  delta : Vec3A
  tmax : EVec3
  cell : IVec3
  faceX : Face
  faceY : Face
  faceZ : Face
deriving DecidableEq

/-- Builds the stage C, D and initial-cell data shared by both branches of
raycast from the joined values. -/
def mkPre (step : IVec3) (deltaMin : Option EVec3) (deltaMax : EVec3) (deltaAdd : ℚ)
    (pos dir : Vec3A) : PreState :=
  { step := step
    deltaMin := deltaMin
    deltaMax := deltaMax
    deltaAdd := deltaAdd
    pos := pos
    delta := ⟨calcDelta dir.x, calcDelta dir.y, calcDelta dir.z⟩
    tmax := ⟨(calcTmax step.x (qfract pos.x) dir.x).addQ deltaAdd,
             (calcTmax step.y (qfract pos.y) dir.y).addQ deltaAdd,
             (calcTmax step.z (qfract pos.z) dir.z).addQ deltaAdd⟩
    cell := ⟨sat32 ⌊pos.x⌋, sat32 ⌊pos.y⌋, sat32 ⌊pos.z⌋⟩
    faceX := faceOfStepX step.x
    faceY := faceOfStepY step.y
    faceZ := faceOfStepZ step.z }

/-- Stages A through D of raycast (origin classification, entry clip, step
parameters, initial t-max), which depend only on the ray.  Returns none on
the early no-hit exits of the clip stage.  The catch-all arm models the
states where the f32 entry distance would not be finite; with the origin
outside the box the computed maximum is finite or plus infinity, and a plus
infinite entry distance always trips either this arm or the preceding
greater-or-equal guard exactly as the f32 code returns none through its
budget guard. -/
def raycastPre (ray : Ray3) : Option PreState :=
  if outsideBox ray.pos then
    let step : IVec3 := ⟨signumQ ray.dir.x, signumQ ray.dir.y, signumQ ray.dir.z⟩
    if pointsAway ray.pos step then none
    else
      let xmm := axisMinMax step.x ray.pos.x ray.dir.x
      let ymm := axisMinMax step.y ray.pos.y ray.dir.y
      let zmm := axisMinMax step.z ray.pos.z ray.dir.z
      let maxMin := EF.max xmm.1 (EF.max ymm.1 zmm.1)
      let minMax := EF.min xmm.2 (EF.min ymm.2 zmm.2)
      if EF.ge maxMin minMax then none
      else
        match maxMin with
        | .fin m =>
          let deltaAdd := m + rayPenetration
          let pos2 : Vec3A := ⟨ray.pos.x + ray.dir.x * deltaAdd,
                               ray.pos.y + ray.dir.y * deltaAdd,
                               ray.pos.z + ray.dir.z * deltaAdd⟩
          some (mkPre step (some ⟨xmm.1, ymm.1, zmm.1⟩) ⟨xmm.2, ymm.2, zmm.2⟩ deltaAdd pos2 ray.dir)
        | _ => none
  else
    let step : IVec3 := ⟨signumQ ray.dir.x, signumQ ray.dir.y, signumQ ray.dir.z⟩
    some (mkPre step none
      ⟨axisMaxIn step.x ray.pos.x ray.dir.x,
       axisMaxIn step.y ray.pos.y ray.dir.y,
       axisMaxIn step.z ray.pos.z ray.dir.z⟩
      0 ray.pos ray.dir)

/-- The face of an entry hit (origin outside, first cell solid): derived
from which axis contributed the largest entry distance, ties resolved x
before y before z; none when no clipping ran. -/
def entryFace (p : PreState) : Option Face :=
  p.deltaMin.map fun mn =>
    if EF.ge mn.x mn.y then
      if EF.ge mn.x mn.z then p.faceX else p.faceZ
    else
      if EF.ge mn.y mn.z then p.faceY else p.faceZ

/-- The data the traversal loop carries unchanged: the grid, step signs,
entry faces, per-axis t deltas, and per-axis travel limits
delta_max.min(max_distance). -/
structure DDAParams where
  chunk : RaytraceChunk
  step : IVec3
  faceX : Face
  faceY : Face
  faceZ : Face
  delta : Vec3A
  maxd : EVec3

/-- Component selection on an EVec3. -/
def EVec3.get (t : EVec3) : Axis → EF
  | .X => t.x
  | .Y => t.y
  | .Z => t.z

/-- Component selection on a Vec3A. -/
def Vec3A.get (v : Vec3A) : Axis → ℚ
  | .X => v.x
  | .Y => v.y
  | .Z => v.z

/-- Component selection on an IVec3. -/
def IVec3.get (v : IVec3) : Axis → ℤ
  | .X => v.x
  | .Y => v.y
  | .Z => v.z

/-- The axis the loop body steps: the nested f32 comparison chain
(t_max.x <= t_max.y, then against z), x preferred over y and z, y over z,
on exact ties. -/
def selAxis (t : EVec3) : Axis :=
  if EF.le t.x t.y then
    if EF.le t.x t.z then .X else .Z
  else
    if EF.le t.y t.z then .Y else .Z

/-- The entry face the loop reports when stepping a given axis. -/
def DDAParams.face (P : DDAParams) : Axis → Face
  | .X => P.faceX
  | .Y => P.faceY
  | .Z => P.faceZ

/-- Cell advance by one step on one axis (i32 wraparound arithmetic). -/
def stepCellOn (step cell : IVec3) : Axis → IVec3
  | .X => ⟨wrap32 (cell.x + step.x), cell.y, cell.z⟩
  | .Y => ⟨cell.x, wrap32 (cell.y + step.y), cell.z⟩
  | .Z => ⟨cell.x, cell.y, wrap32 (cell.z + step.z)⟩

/-- t-max advance by one t delta on one axis. -/
def bumpTmax (t : EVec3) (delta : Vec3A) : Axis → EVec3
  | .X => ⟨t.x.addQ delta.x, t.y, t.z⟩
  | .Y => ⟨t.x, t.y.addQ delta.y, t.z⟩
  | .Z => ⟨t.x, t.y, t.z.addQ delta.z⟩

/-- Outcome of one iteration of the traversal loop: a return (no hit or a
hit), or the advanced state. -/
inductive StepRes where
  | done (r : Option RayHit)
  | cont (cell : IVec3) (t : EVec3)
deriving DecidableEq

/-- The loop body for one chosen axis: bound check against the travel limit,
cell advance, grid lookup, hit or t-max advance. -/
def stepAxis (P : DDAParams) (A : Axis) (cell : IVec3) (t : EVec3) : StepRes :=
  if EF.ge (t.get A) (P.maxd.get A) then .done none
  else
    let cell2 := stepCellOn P.step cell A
    let id := P.chunk.get cell2.x cell2.y cell2.z
    if id ≠ 0 then .done (some (RayHit.hitFace cell2 (t.get A) id (P.face A)))
    else .cont cell2 (bumpTmax t P.delta A)

/-- One full iteration of the traversal loop: the axis with the smallest
t-max (x, then y, then z on ties) is stepped.  The three branch bodies of
the source are identical up to the axis, factored through stepAxis. -/
def ddaStep (P : DDAParams) (cell : IVec3) (t : EVec3) : StepRes :=
  stepAxis P (selAxis t) cell t

/-- The traversal loop, fuel-indexed: none means the fuel ran out, some r
means the source loop returns r (r itself is the optional hit). -/
def ddaLoop (P : DDAParams) : ℕ → IVec3 → EVec3 → Option (Option RayHit)
  | 0, _, _ => none
  | fuel + 1, cell, t =>
    match ddaStep P cell t with
    | .done r => some r
    | .cont cell2 t2 => ddaLoop P fuel cell2 t2

/-- Upper bound on the iterations the loop can still run on one axis before
its t-max reaches its travel limit. -/
def natSteps (bound t : EF) (delta : ℚ) : ℕ :=
  match bound, t with
  | .fin m, .fin tq => if tq < m then (⌈(m - tq) / delta⌉).toNat else 0
  | _, _ => 0

/-- Upper bound on the total remaining loop iterations. -/
def fuelMeasure (P : DDAParams) (t : EVec3) : ℕ :=
  natSteps P.maxd.x t.x P.delta.x + natSteps P.maxd.y t.y P.delta.y +
    natSteps P.maxd.z t.z P.delta.z

/-- The travel limits of the loop: delta_max.min(max_distance), per axis. -/
def mkMaxd (deltaMax : EVec3) (maxDistance : ℚ) : EVec3 :=
  ⟨EF.min deltaMax.x (.fin maxDistance),
   EF.min deltaMax.y (.fin maxDistance),
   EF.min deltaMax.z (.fin maxDistance)⟩

/-- The loop parameters raycast passes to the traversal loop. -/
def mkParams (c : RaytraceChunk) (p : PreState) (maxDistance : ℚ) : DDAParams :=
  ⟨c, p.step, p.faceX, p.faceY, p.faceZ, p.delta, mkMaxd p.deltaMax maxDistance⟩

/-- RaytraceChunk::raycast.  The clip-stage budget guard
(delta_add >= max_distance, only when entry clipping ran) is applied here;
then the immediate-cell check, then the traversal loop, run with a fuel
amount proved sufficient below. -/
def raycast (c : RaytraceChunk) (ray : Ray3) (maxDistance : ℚ) : Option RayHit :=
  match raycastPre ray with
  | none => none
  | some p =>
    if p.deltaMin.isSome ∧ maxDistance ≤ p.deltaAdd then none
    else
      let id := c.get p.cell.x p.cell.y p.cell.z
      if id ≠ 0 then some ⟨p.cell, id, entryFace p, .fin p.deltaAdd⟩
      else
        let P := mkParams c p maxDistance
        match ddaLoop P (fuelMeasure P p.tmax + 1) p.cell p.tmax with
        | some r => r
        | none => none

/-! Helper lemmas about the bit-pattern bounds check. -/

/-- A natural is bounded by its bitwise or with anything. -/
theorem le_or_left (x : ℕ) : ∀ y : ℕ, x ≤ x ||| y := by
  induction x using Nat.strong_induction_on with
  | _ x ih =>
    intro y
    rcases Nat.eq_zero_or_pos x with h | h
    · simp [h]
    · have h2 : x / 2 < x := Nat.div_lt_self h (by norm_num)
      have hle := ih (x / 2) h2 (y / 2)
      have hdiv : (x ||| y) / 2 = x / 2 ||| y / 2 := Nat.or_div_two
      have hmod : x % 2 ≤ (x ||| y) % 2 := by
        rcases Nat.mod_two_eq_zero_or_one x with h0 | h1
        · simp [h0]
        · have : (x ||| y) % 2 = 1 := Nat.or_mod_two_eq_one.mpr (Or.inl h1)
          omega
      have e1 := Nat.div_add_mod x 2
      have e2 := Nat.div_add_mod (x ||| y) 2
      rw [hdiv] at e2
      omega

/-- A natural is bounded by anything bitwise-orred with it. -/
theorem le_or_right (x y : ℕ) : y ≤ x ||| y := by
  rw [Nat.or_comm]
  exact le_or_left y x

/-- For an i32-range value, the u32 bit pattern is below 64 exactly when the
value itself is in [0, 64). -/
theorem bits32_lt64_iff {x : ℤ} (h1 : -(2 ^ 31) ≤ x) (h2 : x < 2 ^ 31) :
    bits32 x < 64 ↔ 0 ≤ x ∧ x < 64 := by
  unfold bits32
  omega

/-- The combined bit pattern is below 64 exactly when all three patterns
are. -/
theorem u32or3_lt64_iff (x y z : ℤ) :
    u32or3 x y z < 64 ↔ bits32 x < 64 ∧ bits32 y < 64 ∧ bits32 z < 64 := by
  unfold u32or3
  constructor
  · intro h
    refine ⟨?_, ?_, ?_⟩
    · exact lt_of_le_of_lt (le_trans (le_or_left _ (bits32 y)) (le_or_left _ (bits32 z))) h
    · exact lt_of_le_of_lt (le_trans (le_or_right (bits32 x) _) (le_or_left _ (bits32 z))) h
    · exact lt_of_le_of_lt (le_or_right _ _) h
  · rintro ⟨hx, hy, hz⟩
    have h64 : (64 : ℕ) = 2 ^ 6 := by norm_num
    rw [h64] at hx hy hz ⊢
    exact Nat.or_lt_two_pow (Nat.or_lt_two_pow hx hy) hz

/-- The bounds check of get and set, versus explicit range comparisons, for
i32-range coordinates. -/
theorem u32or3_check_iff {x y z : ℤ}
    (hx1 : -(2 ^ 31) ≤ x) (hx2 : x < 2 ^ 31) (hy1 : -(2 ^ 31) ≤ y) (hy2 : y < 2 ^ 31)
    (hz1 : -(2 ^ 31) ≤ z) (hz2 : z < 2 ^ 31) :
    64 ≤ u32or3 x y z ↔
      ¬(0 ≤ x ∧ x < 64 ∧ 0 ≤ y ∧ y < 64 ∧ 0 ≤ z ∧ z < 64) := by
  rw [← Nat.not_lt, not_iff_not, u32or3_lt64_iff,
    bits32_lt64_iff hx1 hx2, bits32_lt64_iff hy1 hy2, bits32_lt64_iff hz1 hz2]
  tauto

/-- The flat index of an in-bounds coordinate addresses the backing array of
length 64 cubed. -/
theorem flatIndex_lt {x y z : ℤ} (hx : bits32 x < 64) (hy : bits32 y < 64)
    (hz : bits32 z < 64) : flatIndex x y z < 262144 := by
  unfold flatIndex
  have h64 : (64 : ℕ) = 2 ^ 6 := by norm_num
  rw [h64] at hx hy hz
  have h262144 : (262144 : ℕ) = 2 ^ 18 := by norm_num
  rw [h262144]
  have hys : bits32 y <<< 12 < 2 ^ 18 := Nat.shiftLeft_lt hy
  have hzs : bits32 z <<< 6 < 2 ^ 12 := Nat.shiftLeft_lt hz
  have hxs : bits32 x < 2 ^ 18 := lt_of_lt_of_le hx (by norm_num)
  exact Nat.or_lt_two_pow (Nat.or_lt_two_pow hys (lt_of_lt_of_le hzs (by norm_num))) hxs

/-- C7: for i32 coordinates with any component outside [0, 64), get returns 0
and set leaves the grid (the whole chunk value) unchanged for any identifier,
and the u32-reinterpreted bitwise-or bounds check agrees with the three
explicit range comparisons on all i32 coordinates. -/
theorem get_set_out_of_bounds (c : RaytraceChunk) (x y z : ℤ)
    (hx1 : -(2 ^ 31) ≤ x) (hx2 : x < 2 ^ 31) (hy1 : -(2 ^ 31) ≤ y) (hy2 : y < 2 ^ 31)
    (hz1 : -(2 ^ 31) ≤ z) (hz2 : z < 2 ^ 31) :
    ((64 ≤ u32or3 x y z) ↔
      ¬(0 ≤ x ∧ x < 64 ∧ 0 ≤ y ∧ y < 64 ∧ 0 ≤ z ∧ z < 64)) ∧
    (¬(0 ≤ x ∧ x < 64 ∧ 0 ≤ y ∧ y < 64 ∧ 0 ≤ z ∧ z < 64) →
      c.get x y z = 0 ∧ ∀ id, c.set x y z id = c) := by
  have hiff := u32or3_check_iff hx1 hx2 hy1 hy2 hz1 hz2
  refine ⟨hiff, fun hout => ?_⟩
  have hc : 64 ≤ u32or3 x y z := hiff.mpr hout
  constructor
  · unfold RaytraceChunk.get
    rw [if_pos hc]
  · intro id
    unfold RaytraceChunk.set
    rw [if_pos hc]

/-- C7 witness: the probe coordinate (-1, 0, 0) on a fresh grid. -/
theorem get_set_out_of_bounds_witness :
    ((64 ≤ u32or3 (-1) 0 0) ↔
      ¬(0 ≤ (-1 : ℤ) ∧ (-1 : ℤ) < 64 ∧ 0 ≤ (0 : ℤ) ∧ (0 : ℤ) < 64 ∧ 0 ≤ (0 : ℤ) ∧ (0 : ℤ) < 64)) ∧
    (RaytraceChunk.new.get (-1) 0 0 = 0 ∧ RaytraceChunk.new.set (-1) 0 0 7 = RaytraceChunk.new) := by
  have h := get_set_out_of_bounds RaytraceChunk.new (-1) 0 0
    (by decide) (by decide) (by decide) (by decide) (by decide) (by decide)
  have hout : ¬(0 ≤ (-1 : ℤ) ∧ (-1 : ℤ) < 64 ∧ 0 ≤ (0 : ℤ) ∧ (0 : ℤ) < 64 ∧ 0 ≤ (0 : ℤ) ∧ (0 : ℤ) < 64) := by
    decide
  exact ⟨h.1, (h.2 hout).1, (h.2 hout).2 7⟩

/-- C6 (amended): get_hit_cell offsets the hit coordinate by exactly one
unit along the normal of the present face (the adjacent empty entry cell),
and leaves it unchanged when no face is present. -/
theorem getHitCell_offset (h : RayHit) :
    (⟨(h.getHitCell.x : ℚ), (h.getHitCell.y : ℚ), (h.getHitCell.z : ℚ)⟩ : Vec3A) =
      match h.face with
      | some f => ⟨(h.coord.x : ℚ) + (Face.normal f).x, (h.coord.y : ℚ) + (Face.normal f).y,
                   (h.coord.z : ℚ) + (Face.normal f).z⟩
      | none => ⟨(h.coord.x : ℚ), (h.coord.y : ℚ), (h.coord.z : ℚ)⟩ := by
  obtain ⟨coord, id, face, dist⟩ := h
  rcases face with _ | f
  · simp [RayHit.getHitCell]
  · cases f <;> simp [RayHit.getHitCell, Face.normal, Vec3A.mk.injEq, Int.cast_sub,
      Int.cast_add, Int.cast_one, sub_eq_add_neg]

/-- C6 counterexample: for a hit on face PosX at (5, 5, 5), get_hit_cell
returns (6, 5, 5), the coordinate moved along the +X face normal, not the
coordinate moved opposite it, which would be (4, 5, 5). -/
theorem getHitCell_counterexample :
    (RayHit.hitFace ⟨5, 5, 5⟩ (.fin 0) 1 Face.PosX).getHitCell = ⟨6, 5, 5⟩ ∧
    ¬(((RayHit.hitFace ⟨5, 5, 5⟩ (.fin 0) 1 Face.PosX).getHitCell.x : ℚ) =
        (5 : ℚ) - (Face.normal Face.PosX).x) := by
  constructor
  · rfl
  · norm_num [RayHit.getHitCell, RayHit.hitFace, Face.normal]

/-! Serialization lemmas. -/

/-- save writes exactly 4 bytes per cell. -/
theorem saveCells_length (c : RaytraceChunk) :
    ∀ (n start : ℕ), (saveCells c start n).length = 4 * n := by
  intro n
  induction n with
  | zero => intro start; simp [saveCells]
  | succ n ih =>
    intro start
    simp [saveCells, beBytes, ih (start + 1)]
    ring

/-- Reassembling the four big-endian bytes of a u32 value gives it back. -/
theorem fromBe_beBytes (v : ℕ) (h : v < 2 ^ 32) :
    fromBeBytes (v / 2 ^ 24 % 256) (v / 2 ^ 16 % 256) (v / 2 ^ 8 % 256) (v % 256) = v := by
  unfold fromBeBytes
  omega

/-- Reading back what save wrote reproduces the written cells (and leaves a
chosen tail of the stream unread). -/
theorem loadCells_saveCells (c : RaytraceChunk) :
    ∀ (n start : ℕ) (bl : ℕ → ℕ) (tail : List ℕ),
      (∀ i, start ≤ i → i < start + n → c.blocks i < 2 ^ 32) →
      ∃ bl2, loadCells bl start n (saveCells c start n ++ tail) = .ok (bl2, tail) ∧
        (∀ i, start ≤ i → i < start + n → bl2 i = c.blocks i) ∧
        (∀ i, i < start → bl2 i = bl i) := by
  intro n
  induction n with
  | zero =>
    intro start bl tail _
    exact ⟨bl, by simp [saveCells, loadCells], by omega, fun i _ => rfl⟩
  | succ n ih =>
    intro start bl tail hrange
    have hv : c.blocks start < 2 ^ 32 := hrange start le_rfl (by omega)
    have hstep : saveCells c start (n + 1) ++ tail =
        (c.blocks start / 2 ^ 24 % 256) :: (c.blocks start / 2 ^ 16 % 256) ::
        (c.blocks start / 2 ^ 8 % 256) :: (c.blocks start % 256) ::
        (saveCells c (start + 1) n ++ tail) := by
      simp [saveCells, beBytes]
    obtain ⟨bl2, heq, hin, hout⟩ := ih (start + 1)
      (fun i => if i = start then fromBeBytes (c.blocks start / 2 ^ 24 % 256)
        (c.blocks start / 2 ^ 16 % 256) (c.blocks start / 2 ^ 8 % 256) (c.blocks start % 256)
        else bl i)
      tail (fun i h1 h2 => hrange i (by omega) (by omega))
    refine ⟨bl2, ?_, ?_, ?_⟩
    · rw [hstep]
      simpa [loadCells] using heq
    · intro i h1 h2
      rcases Nat.eq_or_lt_of_le h1 with h | h
      · rw [← h]
        rw [hout start (by omega), if_pos rfl]
        exact fromBe_beBytes _ hv
      · exact hin i (by omega) (by omega)
    · intro i h
      rw [hout i (by omega), if_neg (Nat.ne_of_lt h)]

/-- C8: saving a grid and loading the bytes into a fresh grid reproduces get
on every coordinate exactly, the file being the 64 cubed cells as big-endian
32-bit values in flat-index order, 4 bytes each. -/
theorem save_load_roundtrip (c : RaytraceChunk)
    (hb : ∀ i, i < 262144 → c.blocks i < 2 ^ 32) :
    (saveBytes c).length = 262144 * 4 ∧
    ∃ c2, RaytraceChunk.load RaytraceChunk.new (saveBytes c) = .ok c2 ∧
      ∀ x y z : ℤ, c2.get x y z = c.get x y z := by
  constructor
  · rw [saveBytes, saveCells_length]
  · obtain ⟨bl2, heq, hin, _⟩ := loadCells_saveCells c 262144 0 RaytraceChunk.new.blocks []
      (fun i _ h2 => hb i (by omega))
    rw [List.append_nil] at heq
    refine ⟨⟨bl2, true⟩, ?_, ?_⟩
    · rw [RaytraceChunk.load, saveBytes]
      rw [heq]
    · intro x y z
      unfold RaytraceChunk.get
      by_cases hc : 64 ≤ u32or3 x y z
      · rw [if_pos hc, if_pos hc]
      · rw [if_neg hc, if_neg hc]
        have hlt : u32or3 x y z < 64 := by omega
        obtain ⟨hx, hy, hz⟩ := (u32or3_lt64_iff x y z).mp hlt
        exact hin (flatIndex x y z) (by omega) (flatIndex_lt hx hy hz)

/-- C8 witness: the round trip on a freshly created grid. -/
theorem save_load_roundtrip_witness :
    (∀ i, i < 262144 → RaytraceChunk.new.blocks i < 2 ^ 32) ∧
    ((saveBytes RaytraceChunk.new).length = 262144 * 4 ∧
     ∃ c2, RaytraceChunk.load RaytraceChunk.new (saveBytes RaytraceChunk.new) = .ok c2 ∧
       ∀ x y z : ℤ, c2.get x y z = RaytraceChunk.new.get x y z) := by
  have hb : ∀ i, i < 262144 → RaytraceChunk.new.blocks i < 2 ^ 32 := by
    intro i _
    norm_num [RaytraceChunk.new]
  exact ⟨hb, save_load_roundtrip RaytraceChunk.new hb⟩

/-- A stream with fewer than 4 bytes per remaining cell runs out of data. -/
theorem loadCells_short :
    ∀ (n : ℕ) (bl : ℕ → ℕ) (start : ℕ) (bytes : List ℕ), bytes.length < 4 * n →
      loadCells bl start n bytes = .error .unexpectedEof := by
  intro n
  induction n with
  | zero => intro bl start bytes h; omega
  | succ n ih =>
    intro bl start bytes h
    match bytes with
    | [] => rfl
    | [b0] => rfl
    | [b0, b1] => rfl
    | [b0, b1, b2] => rfl
    | b0 :: b1 :: b2 :: b3 :: rest =>
      have : rest.length < 4 * n := by
        simp at h
        omega
      simpa [loadCells] using ih _ (start + 1) rest this

/-- C9 (amended): a file shorter than 64 cubed times 4 bytes makes load fail
with an unexpected end of data, for any starting grid. -/
theorem load_short_file (c : RaytraceChunk) (bytes : List ℕ)
    (h : bytes.length < 262144 * 4) :
    RaytraceChunk.load c bytes = .error .unexpectedEof := by
  rw [RaytraceChunk.load, loadCells_short 262144 c.blocks 0 bytes (by omega)]

/-- C9 witness: loading an empty file fails. -/
theorem load_short_file_witness :
    (([] : List ℕ).length < 262144 * 4) ∧
    RaytraceChunk.load RaytraceChunk.new [] = .error .unexpectedEof := by
  exact ⟨by norm_num, load_short_file RaytraceChunk.new [] (by norm_num)⟩

/-- Reading cells from an all-zero stream holding 4 bytes per cell plus k
spare bytes succeeds and leaves the spare bytes unread. -/
theorem loadCells_zero_stream :
    ∀ (n : ℕ) (bl : ℕ → ℕ) (start k : ℕ),
      ∃ bl2, loadCells bl start n (List.replicate (4 * n + k) 0) =
        .ok (bl2, List.replicate k 0) := by
  intro n
  induction n with
  | zero =>
    intro bl start k
    exact ⟨bl, by simp [loadCells]⟩
  | succ n ih =>
    intro bl start k
    have hrep : List.replicate (4 * (n + 1) + k) (0 : ℕ) =
        0 :: 0 :: 0 :: 0 :: List.replicate (4 * n + k) 0 := by
      have : 4 * (n + 1) + k = 4 + (4 * n + k) := by ring
      rw [this, List.replicate_add]
      rfl
    obtain ⟨bl2, h2⟩ := ih (fun i => if i = start then fromBeBytes 0 0 0 0 else bl i) (start + 1) k
    refine ⟨bl2, ?_⟩
    rw [hrep]
    simpa [loadCells] using h2

/-- C9 counterexample: a file of the wrong length (4 bytes longer than
64 cubed cells) does not make load fail; load succeeds, ignoring the
trailing bytes. -/
theorem load_long_file_counterexample :
    ((List.replicate 1048580 (0 : ℕ)).length ≠ 262144 * 4) ∧
    ∃ c2, RaytraceChunk.load RaytraceChunk.new (List.replicate 1048580 (0 : ℕ)) = .ok c2 := by
  constructor
  · rw [List.length_replicate]
    norm_num
  · obtain ⟨bl2, h2⟩ := loadCells_zero_stream 262144 RaytraceChunk.new.blocks 0 4
    refine ⟨⟨bl2, true⟩, ?_⟩
    rw [RaytraceChunk.load]
    rw [show (1048580 : ℕ) = 4 * 262144 + 4 by norm_num, h2]

/-! Lemmas about the traversal setup. -/

/-- The float-to-int cast clamp is the identity on i32-range values. -/
theorem sat32_eq {x : ℤ} (h1 : -(2 ^ 31) ≤ x) (h2 : x ≤ 2 ^ 31 - 1) : sat32 x = x := by
  unfold sat32
  omega

/-- An origin with all components in [0, 64) is not outside the box. -/
theorem outsideBox_eq_false {p : Vec3A} (hx1 : 0 ≤ p.x) (hx2 : p.x < 64)
    (hy1 : 0 ≤ p.y) (hy2 : p.y < 64) (hz1 : 0 ≤ p.z) (hz2 : p.z < 64) :
    outsideBox p = false := by
  have nx1 : ¬(p.x < 0) := not_lt.mpr hx1
  have nx2 : ¬(64 ≤ p.x) := not_le.mpr hx2
  have ny1 : ¬(p.y < 0) := not_lt.mpr hy1
  have ny2 : ¬(64 ≤ p.y) := not_le.mpr hy2
  have nz1 : ¬(p.z < 0) := not_lt.mpr hz1
  have nz2 : ¬(64 ≤ p.z) := not_le.mpr hz2
  simp [outsideBox, nx1, nx2, ny1, ny2, nz1, nz2]

/-- Unfolding equation for raycast with the let bindings resolved. -/
theorem raycast_eq (c : RaytraceChunk) (ray : Ray3) (M : ℚ) :
    raycast c ray M =
      match raycastPre ray with
      | none => none
      | some p =>
        if p.deltaMin.isSome ∧ M ≤ p.deltaAdd then none
        else if c.get p.cell.x p.cell.y p.cell.z ≠ 0 then
          some ⟨p.cell, c.get p.cell.x p.cell.y p.cell.z, entryFace p, .fin p.deltaAdd⟩
        else
          match ddaLoop (mkParams c p M) (fuelMeasure (mkParams c p M) p.tmax + 1) p.cell p.tmax with
          | some r => r
          | none => none := rfl

/-- Unfolding raycast when the setup misses. -/
theorem raycast_eq_none {c : RaytraceChunk} {ray : Ray3} {M : ℚ}
    (hpre : raycastPre ray = none) : raycast c ray M = none := by
  rw [raycast_eq, hpre]

/-- Unfolding raycast when the setup yields a loop state. -/
theorem raycast_eq_some {c : RaytraceChunk} {ray : Ray3} {M : ℚ} {p : PreState}
    (hpre : raycastPre ray = some p) :
    raycast c ray M =
      if p.deltaMin.isSome ∧ M ≤ p.deltaAdd then none
      else if c.get p.cell.x p.cell.y p.cell.z ≠ 0 then
        some ⟨p.cell, c.get p.cell.x p.cell.y p.cell.z, entryFace p, .fin p.deltaAdd⟩
      else
        match ddaLoop (mkParams c p M) (fuelMeasure (mkParams c p M) p.tmax + 1)
            p.cell p.tmax with
        | some r => r
        | none => none := by
  rw [raycast_eq, hpre]

/-- The PreState of the inside (fast) path. -/
def insidePre (ray : Ray3) : PreState :=
  mkPre ⟨signumQ ray.dir.x, signumQ ray.dir.y, signumQ ray.dir.z⟩ none
    ⟨axisMaxIn (signumQ ray.dir.x) ray.pos.x ray.dir.x,
     axisMaxIn (signumQ ray.dir.y) ray.pos.y ray.dir.y,
     axisMaxIn (signumQ ray.dir.z) ray.pos.z ray.dir.z⟩
    0 ray.pos ray.dir

/-- When the origin is inside the box, the setup takes the fast path. -/
theorem raycastPre_inside {ray : Ray3} (hout : outsideBox ray.pos = false) :
    raycastPre ray = some (insidePre ray) := by
  rw [raycastPre, hout, insidePre]
  rfl

/-- C3: a ray whose origin lies inside the grid in a cell holding a nonzero
identifier hits that cell immediately, for any direction and any
max_distance: the hit has the origin cell as coordinate, carries no face,
and has distance zero (the entry clip never ran, so no offset was added). -/
theorem raycast_inside_solid (c : RaytraceChunk) (ray : Ray3) (M : ℚ)
    (hx1 : 0 ≤ ray.pos.x) (hx2 : ray.pos.x < 64)
    (hy1 : 0 ≤ ray.pos.y) (hy2 : ray.pos.y < 64)
    (hz1 : 0 ≤ ray.pos.z) (hz2 : ray.pos.z < 64)
    (hid : c.get ⌊ray.pos.x⌋ ⌊ray.pos.y⌋ ⌊ray.pos.z⌋ ≠ 0) :
    raycast c ray M =
      some ⟨⟨⌊ray.pos.x⌋, ⌊ray.pos.y⌋, ⌊ray.pos.z⌋⟩,
        c.get ⌊ray.pos.x⌋ ⌊ray.pos.y⌋ ⌊ray.pos.z⌋, none, .fin 0⟩ := by
  have hout := outsideBox_eq_false hx1 hx2 hy1 hy2 hz1 hz2
  have hfx : sat32 ⌊ray.pos.x⌋ = ⌊ray.pos.x⌋ := by
    have h1 : (0 : ℤ) ≤ ⌊ray.pos.x⌋ := Int.le_floor.mpr (by exact_mod_cast hx1)
    have h2 : ⌊ray.pos.x⌋ < 64 := Int.floor_lt.mpr (by exact_mod_cast hx2)
    exact sat32_eq (by omega) (by omega)
  have hfy : sat32 ⌊ray.pos.y⌋ = ⌊ray.pos.y⌋ := by
    have h1 : (0 : ℤ) ≤ ⌊ray.pos.y⌋ := Int.le_floor.mpr (by exact_mod_cast hy1)
    have h2 : ⌊ray.pos.y⌋ < 64 := Int.floor_lt.mpr (by exact_mod_cast hy2)
    exact sat32_eq (by omega) (by omega)
  have hfz : sat32 ⌊ray.pos.z⌋ = ⌊ray.pos.z⌋ := by
    have h1 : (0 : ℤ) ≤ ⌊ray.pos.z⌋ := Int.le_floor.mpr (by exact_mod_cast hz1)
    have h2 : ⌊ray.pos.z⌋ < 64 := Int.floor_lt.mpr (by exact_mod_cast hz2)
    exact sat32_eq (by omega) (by omega)
  rw [raycast_eq, raycastPre_inside hout]
  simp only [insidePre, mkPre, entryFace, Option.isSome_none, Bool.false_eq_true, false_and,
    if_false, Option.map_none, hfx, hfy, hfz]
  rw [if_pos hid]
  rfl

/-- A grid holding a single solid cell at the origin cell. -/
def chunk0 : RaytraceChunk := RaytraceChunk.new.set 0 0 0 1

/-- A ray starting inside that solid cell. -/
def rayInside : Ray3 := ⟨⟨1/2, 1/2, 1/2⟩, ⟨1, 0, 0⟩⟩

/-- C3 witness: a ray starting at (1/2, 1/2, 1/2) inside the solid origin
cell hits it with no face at distance zero. -/
theorem raycast_inside_solid_witness :
    chunk0.get ⌊rayInside.pos.x⌋ ⌊rayInside.pos.y⌋ ⌊rayInside.pos.z⌋ ≠ 0 ∧
    raycast chunk0 rayInside 1 =
      some ⟨⟨⌊rayInside.pos.x⌋, ⌊rayInside.pos.y⌋, ⌊rayInside.pos.z⌋⟩,
        chunk0.get ⌊rayInside.pos.x⌋ ⌊rayInside.pos.y⌋ ⌊rayInside.pos.z⌋, none, .fin 0⟩ := by
  have hid : chunk0.get ⌊rayInside.pos.x⌋ ⌊rayInside.pos.y⌋ ⌊rayInside.pos.z⌋ ≠ 0 := by
    have hfl : (⌊rayInside.pos.x⌋ : ℤ) = 0 ∧ (⌊rayInside.pos.y⌋ : ℤ) = 0 ∧
        (⌊rayInside.pos.z⌋ : ℤ) = 0 := by
      norm_num [rayInside]
    rw [hfl.1, hfl.2.1, hfl.2.2]
    decide
  exact ⟨hid, raycast_inside_solid chunk0 rayInside 1
    (by norm_num [rayInside]) (by norm_num [rayInside]) (by norm_num [rayInside])
    (by norm_num [rayInside]) (by norm_num [rayInside]) (by norm_num [rayInside]) hid⟩

/-! Lemmas about the traversal loop. -/

/-- Inverting a loop iteration that returned a hit. -/
theorem stepAxis_done_some {P : DDAParams} {A cell t h}
    (hs : stepAxis P A cell t = .done (some h)) :
    EF.ge (t.get A) (P.maxd.get A) = false ∧
    h = RayHit.hitFace (stepCellOn P.step cell A) (t.get A)
      (P.chunk.get (stepCellOn P.step cell A).x (stepCellOn P.step cell A).y
        (stepCellOn P.step cell A).z) (P.face A) ∧
    P.chunk.get (stepCellOn P.step cell A).x (stepCellOn P.step cell A).y
      (stepCellOn P.step cell A).z ≠ 0 := by
  unfold stepAxis at hs
  split at hs
  · simp at hs
  · dsimp only at hs
    split at hs
    · simp only [StepRes.done.injEq, Option.some.injEq] at hs
      refine ⟨by simp_all, hs.symm, by assumption⟩
    · simp at hs

/-- Inverting a loop iteration that returned no hit. -/
theorem stepAxis_done_none {P : DDAParams} {A cell t}
    (hs : stepAxis P A cell t = .done none) :
    EF.ge (t.get A) (P.maxd.get A) = true := by
  unfold stepAxis at hs
  split at hs
  · assumption
  · dsimp only at hs
    split at hs <;> simp_all

/-- Inverting a loop iteration that advanced. -/
theorem stepAxis_cont {P : DDAParams} {A cell t c2 t2}
    (hs : stepAxis P A cell t = .cont c2 t2) :
    EF.ge (t.get A) (P.maxd.get A) = false ∧
    c2 = stepCellOn P.step cell A ∧ t2 = bumpTmax t P.delta A ∧
    P.chunk.get c2.x c2.y c2.z = 0 := by
  unfold stepAxis at hs
  split at hs
  · simp at hs
  · dsimp only at hs
    split at hs
    · simp at hs
    · simp only [StepRes.cont.injEq] at hs
      refine ⟨by simp_all, hs.1.symm, hs.2.symm, ?_⟩
      rw [← hs.1]
      simp_all

/-- More fuel never changes an already-returned loop outcome. -/
theorem ddaLoop_fuel_mono {P : DDAParams} :
    ∀ {f cell t r}, ddaLoop P f cell t = some r → ∀ {f2}, f ≤ f2 →
      ddaLoop P f2 cell t = some r := by
  intro f
  induction f with
  | zero => intro cell t r h; simp [ddaLoop] at h
  | succ n ih =>
    intro cell t r h f2 hf
    obtain ⟨m, rfl⟩ : ∃ m, f2 = m + 1 := ⟨f2 - 1, by omega⟩
    simp only [ddaLoop] at h ⊢
    cases hstep : ddaStep P cell t with
    | done r2 => rw [hstep] at h; exact h
    | cont c2 t2 => rw [hstep] at h; exact ih h (by omega)

/-- Bumping one axis reads back as an addQ on that axis. -/
theorem bumpTmax_get_self (t : EVec3) (d : Vec3A) (A : Axis) :
    (bumpTmax t d A).get A = (t.get A).addQ (d.get A) := by
  cases A <;> rfl

/-- Bumping one axis leaves the others unchanged. -/
theorem bumpTmax_get_other {A B : Axis} (h : B ≠ A) (t : EVec3) (d : Vec3A) :
    (bumpTmax t d A).get B = t.get B := by
  cases A <;> cases B <;> simp_all [bumpTmax, EVec3.get]

/-- i32 range predicate for a cell coordinate triple. -/
def IVec3.inI32 (v : IVec3) : Prop :=
  -(2 ^ 31) ≤ v.x ∧ v.x < 2 ^ 31 ∧ -(2 ^ 31) ≤ v.y ∧ v.y < 2 ^ 31 ∧
  -(2 ^ 31) ≤ v.z ∧ v.z < 2 ^ 31

/-- Wraparound lands in the i32 range. -/
theorem wrap32_range (x : ℤ) : -(2 ^ 31) ≤ wrap32 x ∧ wrap32 x < 2 ^ 31 := by
  unfold wrap32
  omega

/-- Wraparound is the identity inside the i32 range. -/
theorem wrap32_eq {x : ℤ} (h1 : -(2 ^ 31) ≤ x) (h2 : x < 2 ^ 31) : wrap32 x = x := by
  unfold wrap32
  omega

/-- Stepping a cell keeps it in the i32 range. -/
theorem stepCellOn_inI32 (step cell : IVec3) (A : Axis) (h : cell.inI32) :
    (stepCellOn step cell A).inI32 := by
  obtain ⟨h1, h2, h3, h4, h5, h6⟩ := h
  cases A <;>
    exact ⟨by first
      | exact (wrap32_range _).1
      | assumption, by first
      | exact (wrap32_range _).2
      | assumption, by first
      | exact (wrap32_range _).1
      | assumption, by first
      | exact (wrap32_range _).2
      | assumption, by first
      | exact (wrap32_range _).1
      | assumption, by first
      | exact (wrap32_range _).2
      | assumption⟩

/-- All components of a t-max triple are finite. -/
def EVec3.allFin (t : EVec3) : Prop :=
  (∃ q, t.x = EF.fin q) ∧ (∃ q, t.y = EF.fin q) ∧ (∃ q, t.z = EF.fin q)

/-- Componentwise reading of allFin. -/
theorem EVec3.allFin_get {t : EVec3} (h : t.allFin) (A : Axis) : ∃ q, t.get A = EF.fin q := by
  cases A
  · exact h.1
  · exact h.2.1
  · exact h.2.2

/-- Bumping preserves finiteness of all components. -/
theorem bumpTmax_allFin {t : EVec3} (d : Vec3A) (A : Axis) (h : t.allFin) :
    (bumpTmax t d A).allFin := by
  obtain ⟨⟨qx, hx⟩, ⟨qy, hy⟩, ⟨qz, hz⟩⟩ := h
  cases A <;> refine ⟨?_, ?_, ?_⟩ <;> simp [bumpTmax, hx, hy, hz, EF.addQ]

/-- The per-axis t delta is always positive. -/
theorem calcDelta_pos (mag : ℚ) : 0 < calcDelta mag := by
  unfold calcDelta minPositive
  have hden : (0 : ℚ) < Max.max |mag| (1 / 2 ^ 126) :=
    lt_of_lt_of_le (by norm_num) (le_max_right _ _)
  exact div_pos one_pos hden

/-- With a signum step the initial per-axis t-max is finite (the zero-step
arm of calc_t_max is never taken). -/
theorem calcTmax_signum_fin (q fract mag : ℚ) :
    ∃ r, calcTmax (signumQ q) fract mag = .fin r := by
  rcases lt_or_ge q 0 with hq | hq
  · refine ⟨fract / Max.max |mag| minPositive, ?_⟩
    simp [signumQ, hq, calcTmax]
  · refine ⟨(1 - fract) / Max.max |mag| minPositive, ?_⟩
    simp [signumQ, not_lt.mpr hq, calcTmax]

/-- The saturating cast lands in the i32 range. -/
theorem sat32_range (x : ℤ) : -(2 ^ 31) ≤ sat32 x ∧ sat32 x < 2 ^ 31 := by
  unfold sat32
  omega

/-- The setup facts every loop argument enjoys: positive t deltas, finite
initial t-max values, a starting cell in the i32 range, and the mkPre shape
with signum steps. -/
theorem raycastPre_facts {ray : Ray3} {p : PreState} (h : raycastPre ray = some p) :
    0 < p.delta.x ∧ 0 < p.delta.y ∧ 0 < p.delta.z ∧ p.tmax.allFin ∧ p.cell.inI32 := by
  have hfacts : ∀ (dmin : Option EVec3) (dmax : EVec3) (dadd : ℚ) (pos : Vec3A),
      p = mkPre ⟨signumQ ray.dir.x, signumQ ray.dir.y, signumQ ray.dir.z⟩ dmin dmax dadd
        pos ray.dir →
      0 < p.delta.x ∧ 0 < p.delta.y ∧ 0 < p.delta.z ∧ p.tmax.allFin ∧ p.cell.inI32 := by
    rintro dmin dmax dadd pos rfl
    refine ⟨calcDelta_pos _, calcDelta_pos _, calcDelta_pos _, ⟨?_, ?_, ?_⟩, ?_⟩
    · obtain ⟨r, hr⟩ := calcTmax_signum_fin ray.dir.x (qfract pos.x) ray.dir.x
      exact ⟨r + dadd, by simp [mkPre, hr, EF.addQ]⟩
    · obtain ⟨r, hr⟩ := calcTmax_signum_fin ray.dir.y (qfract pos.y) ray.dir.y
      exact ⟨r + dadd, by simp [mkPre, hr, EF.addQ]⟩
    · obtain ⟨r, hr⟩ := calcTmax_signum_fin ray.dir.z (qfract pos.z) ray.dir.z
      exact ⟨r + dadd, by simp [mkPre, hr, EF.addQ]⟩
    · exact ⟨(sat32_range _).1, (sat32_range _).2, (sat32_range _).1, (sat32_range _).2,
        (sat32_range _).1, (sat32_range _).2⟩
  unfold raycastPre at h
  split at h
  · dsimp only at h
    split at h
    · exact absurd h (by simp)
    · split at h
      · exact absurd h (by simp)
      · split at h
        · exact hfacts _ _ _ _ (Option.some.inj h).symm
        · exact absurd h (by simp)
  · exact hfacts _ _ _ _ (Option.some.inj h).symm

/-- A nonzero get means the coordinate is in bounds (each component in
[0, 64)) provided it lies in the i32 range. -/
theorem get_ne_zero_bounds {c : RaytraceChunk} {x y z : ℤ}
    (hx1 : -(2 ^ 31) ≤ x) (hx2 : x < 2 ^ 31) (hy1 : -(2 ^ 31) ≤ y) (hy2 : y < 2 ^ 31)
    (hz1 : -(2 ^ 31) ≤ z) (hz2 : z < 2 ^ 31) (h : c.get x y z ≠ 0) :
    0 ≤ x ∧ x < 64 ∧ 0 ≤ y ∧ y < 64 ∧ 0 ≤ z ∧ z < 64 := by
  by_contra hout
  have hc : 64 ≤ u32or3 x y z :=
    (u32or3_check_iff hx1 hx2 hy1 hy2 hz1 hz2).mpr hout
  apply h
  unfold RaytraceChunk.get
  rw [if_pos hc]

/-- Facts about every hit the traversal loop returns: its identifier is the
(nonzero) grid value at its coordinate, the coordinate stays in the i32
range, the distance is finite, and the distance was strictly inside some
travel limit. -/
theorem ddaLoop_hit_facts {P : DDAParams} :
    ∀ {f cell t h}, ddaLoop P f cell t = some (some h) → cell.inI32 → t.allFin →
      h.id = P.chunk.get h.coord.x h.coord.y h.coord.z ∧ h.id ≠ 0 ∧ h.coord.inI32 ∧
      (∃ d : ℚ, h.distance = .fin d) ∧
      (∃ A, EF.ge h.distance (P.maxd.get A) = false) ∧ h.face.isSome := by
  intro f
  induction f with
  | zero => intro cell t h hl; simp [ddaLoop] at hl
  | succ n ih =>
    intro cell t h hl hcell htf
    simp only [ddaLoop] at hl
    cases hstep : ddaStep P cell t with
    | done r2 =>
      rw [hstep] at hl
      simp only [Option.some.injEq] at hl
      subst hl
      obtain ⟨hge, hh, hid⟩ := stepAxis_done_some hstep
      subst hh
      obtain ⟨d, hd⟩ := EVec3.allFin_get htf (selAxis t)
      exact ⟨rfl, hid, stepCellOn_inI32 _ _ _ hcell, ⟨d, by simp [RayHit.hitFace, hd]⟩,
        ⟨selAxis t, by simpa [RayHit.hitFace] using hge⟩, by simp [RayHit.hitFace]⟩
    | cont c2 t2 =>
      rw [hstep] at hl
      obtain ⟨_, hc2, ht2, _⟩ := stepAxis_cont hstep
      subst hc2
      subst ht2
      exact ih hl (stepCellOn_inI32 _ _ _ hcell) (bumpTmax_allFin _ _ htf)

/-- C5: whenever raycast returns a hit, the identifier of the hit is
nonzero, equals get at the hit coordinate, and the coordinate is in bounds
(each component in [0, 64)): no hit is ever reported in an empty or
out-of-bounds cell. -/
theorem raycast_hit_invariant (c : RaytraceChunk) (ray : Ray3) (M : ℚ) (h : RayHit)
    (hr : raycast c ray M = some h) :
    h.id ≠ 0 ∧ h.id = c.get h.coord.x h.coord.y h.coord.z ∧
    0 ≤ h.coord.x ∧ h.coord.x < 64 ∧ 0 ≤ h.coord.y ∧ h.coord.y < 64 ∧
    0 ≤ h.coord.z ∧ h.coord.z < 64 := by
  cases hpre : raycastPre ray with
  | none => rw [raycast_eq_none hpre] at hr; exact Option.noConfusion hr
  | some p =>
    rw [raycast_eq_some hpre] at hr
    obtain ⟨_, _, _, htf, hcell⟩ := raycastPre_facts hpre
    split at hr
    · exact Option.noConfusion hr
    · split at hr
      · have hid : c.get p.cell.x p.cell.y p.cell.z ≠ 0 := by assumption
        have hh : RayHit.mk p.cell (c.get p.cell.x p.cell.y p.cell.z) (entryFace p)
            (.fin p.deltaAdd) = h := Option.some.inj hr
        obtain ⟨c1, c2, c3, c4, c5, c6⟩ := hcell
        obtain ⟨b1, b2, b3, b4, b5, b6⟩ := get_ne_zero_bounds c1 c2 c3 c4 c5 c6 hid
        rw [← hh]
        exact ⟨hid, rfl, b1, b2, b3, b4, b5, b6⟩
      · split at hr
        · rename_i r heq
          subst hr
          have hfacts := ddaLoop_hit_facts heq hcell htf
          obtain ⟨hid_eq, hid_ne, hcoord, _, _, _⟩ := hfacts
          obtain ⟨c1, c2, c3, c4, c5, c6⟩ := hcoord
          have hb := get_ne_zero_bounds c1 c2 c3 c4 c5 c6 (by rw [← hid_eq]; exact hid_ne)
          exact ⟨hid_ne, hid_eq, hb.1, hb.2.1, hb.2.2.1, hb.2.2.2.1, hb.2.2.2.2.1, hb.2.2.2.2.2⟩
        · exact Option.noConfusion hr

/-- C5 witness: the concrete inside-a-solid-cell hit of raycast on chunk0
satisfies the invariant. -/
theorem raycast_hit_invariant_witness :
    raycast chunk0 rayInside 1 = some ⟨⟨0, 0, 0⟩, 1, none, .fin 0⟩ ∧
    (1 ≠ 0 ∧ (1 : ℕ) = chunk0.get 0 0 0 ∧
      (0 : ℤ) ≤ 0 ∧ (0 : ℤ) < 64 ∧ (0 : ℤ) ≤ 0 ∧ (0 : ℤ) < 64 ∧ (0 : ℤ) ≤ 0 ∧ (0 : ℤ) < 64) := by
  have heval : raycast chunk0 rayInside 1 = some ⟨⟨0, 0, 0⟩, 1, none, .fin 0⟩ := by
    have hget : chunk0.get 0 0 0 = 1 := by decide
    rw [raycast_eq_some (raycastPre_inside (by norm_num [outsideBox, rayInside]))]
    norm_num [insidePre, mkPre, entryFace, rayInside, sat32, qfract, qtrunc, hget]
  refine ⟨heval, ?_⟩
  have h := raycast_hit_invariant chunk0 rayInside 1 ⟨⟨0, 0, 0⟩, 1, none, .fin 0⟩ heval
  exact ⟨h.1, h.2.1, h.2.2⟩

/-! Axis selection (the tie-breaking comparison chain). -/

/-- The x axis is selected when its t-max is below both others. -/
theorem selAxis_eq_X {t : EVec3} {qx qy qz : ℚ} (hx : t.x = .fin qx) (hy : t.y = .fin qy)
    (hz : t.z = .fin qz) (h1 : qx ≤ qy) (h2 : qx ≤ qz) : selAxis t = .X := by
  simp [selAxis, hx, hy, hz, EF.le, h1, h2]

/-- The y axis is selected when x loses to y and y is below z. -/
theorem selAxis_eq_Y {t : EVec3} {qx qy qz : ℚ} (hx : t.x = .fin qx) (hy : t.y = .fin qy)
    (hz : t.z = .fin qz) (h1 : ¬qx ≤ qy) (h3 : qy ≤ qz) : selAxis t = .Y := by
  simp [selAxis, hx, hy, hz, EF.le, h1, h3]

/-- The z axis is selected when x beats y but loses to z. -/
theorem selAxis_eq_Z_of_xz {t : EVec3} {qx qy qz : ℚ} (hx : t.x = .fin qx) (hy : t.y = .fin qy)
    (hz : t.z = .fin qz) (h1 : qx ≤ qy) (h2 : ¬qx ≤ qz) : selAxis t = .Z := by
  simp [selAxis, hx, hy, hz, EF.le, h1, h2]

/-- The z axis is selected when y beats x but loses to z. -/
theorem selAxis_eq_Z_of_yz {t : EVec3} {qx qy qz : ℚ} (hx : t.x = .fin qx) (hy : t.y = .fin qy)
    (hz : t.z = .fin qz) (h1 : ¬qx ≤ qy) (h3 : ¬qy ≤ qz) : selAxis t = .Z := by
  simp [selAxis, hx, hy, hz, EF.le, h1, h3]

/-- C4: every iteration of the traversal loop steps the axis chosen by
selAxis; that axis carries the minimum of the three t-max values, and exact
ties are broken with the fixed priority x, then y, then z: x is chosen
whenever its t-max attains the minimum, y whenever x does not attain it but
y attains the minimum of y and z, and z only when neither x nor y qualify. -/
theorem traversal_axis_selection (P : DDAParams) (cell : IVec3) (t : EVec3)
    (qx qy qz : ℚ) (hx : t.x = .fin qx) (hy : t.y = .fin qy) (hz : t.z = .fin qz) :
    ddaStep P cell t = stepAxis P (selAxis t) cell t ∧
    t.get (selAxis t) = .fin (Min.min qx (Min.min qy qz)) ∧
    (qx = Min.min qx (Min.min qy qz) → selAxis t = .X) ∧
    (¬qx = Min.min qx (Min.min qy qz) → qy = Min.min qy qz → selAxis t = .Y) ∧
    (¬qx = Min.min qx (Min.min qy qz) → ¬qy = Min.min qy qz → selAxis t = .Z) := by
  refine ⟨rfl, ?_, ?_, ?_, ?_⟩
  · by_cases h1 : qx ≤ qy
    · by_cases h2 : qx ≤ qz
      · rw [selAxis_eq_X hx hy hz h1 h2]
        simp only [EVec3.get, hx, EF.fin.injEq]
        exact (min_eq_left (le_min h1 h2)).symm
      · rw [selAxis_eq_Z_of_xz hx hy hz h1 h2]
        simp only [EVec3.get, hz, EF.fin.injEq]
        rw [min_eq_right (show qz ≤ qy by linarith)]
        exact (min_eq_right (by linarith)).symm
    · by_cases h3 : qy ≤ qz
      · rw [selAxis_eq_Y hx hy hz h1 h3]
        simp only [EVec3.get, hy, EF.fin.injEq]
        rw [min_eq_left h3]
        exact (min_eq_right (by linarith)).symm
      · rw [selAxis_eq_Z_of_yz hx hy hz h1 h3]
        simp only [EVec3.get, hz, EF.fin.injEq]
        rw [min_eq_right (show qz ≤ qy by linarith)]
        exact (min_eq_right (by linarith)).symm
  · intro hmin
    have h1 : qx ≤ qy := by
      rw [hmin]
      exact le_trans (min_le_right _ _) (min_le_left _ _)
    have h2 : qx ≤ qz := by
      rw [hmin]
      exact le_trans (min_le_right _ _) (min_le_right _ _)
    exact selAxis_eq_X hx hy hz h1 h2
  · intro hne h3
    have h3le : qy ≤ qz := min_eq_left_iff.mp h3.symm
    have h1 : ¬qx ≤ qy := by
      intro h1
      exact hne (min_eq_left (le_min h1 (le_trans h1 h3le))).symm
    exact selAxis_eq_Y hx hy hz h1 h3le
  · intro hne1 hne2
    have h3 : ¬qy ≤ qz := fun h => hne2 (min_eq_left h).symm
    by_cases h1 : qx ≤ qy
    · have h2 : ¬qx ≤ qz := by
        intro h2
        exact hne1 (min_eq_left (le_min h1 h2)).symm
      exact selAxis_eq_Z_of_xz hx hy hz h1 h2
    · exact selAxis_eq_Z_of_yz hx hy hz h1 h3

/-- A loop-parameter record used for concrete instantiations. -/
def axisP : DDAParams :=
  ⟨chunk0, ⟨1, 1, 1⟩, .NegX, .NegY, .NegZ, ⟨1, 1, 1⟩, ⟨.fin 1, .fin 1, .fin 1⟩⟩

/-- A three-way exact tie of t-max values. -/
def tTie : EVec3 := ⟨.fin 1, .fin 1, .fin 1⟩

/-- C4 witness: on a three-way exact tie the x axis is stepped. -/
theorem traversal_axis_selection_witness :
    ddaStep axisP ⟨0, 0, 0⟩ tTie = stepAxis axisP (selAxis tTie) ⟨0, 0, 0⟩ tTie ∧
    tTie.get (selAxis tTie) = .fin (Min.min 1 (Min.min 1 1)) ∧
    ((1 : ℚ) = Min.min 1 (Min.min 1 1) → selAxis tTie = .X) ∧
    (¬(1 : ℚ) = Min.min 1 (Min.min 1 1) → (1 : ℚ) = Min.min 1 1 → selAxis tTie = .Y) ∧
    (¬(1 : ℚ) = Min.min 1 (Min.min 1 1) → ¬(1 : ℚ) = Min.min 1 1 → selAxis tTie = .Z) :=
  traversal_axis_selection axisP ⟨0, 0, 0⟩ tTie 1 1 1 rfl rfl rfl

/-! Termination of the traversal loop. -/

/-- Travel limits as raycast builds them are never plus infinity or nan, so
the loop cannot outrun them. -/
def EF.proper : EF → Prop
  | .pinf => False
  | .nan => False
  | _ => True

/-- Clamping by a finite max_distance yields a proper travel limit. -/
theorem min_fin_proper (a : EF) (M : ℚ) : EF.proper (EF.min a (.fin M)) := by
  cases a <;> simp [EF.min, EF.proper]

/-- All three travel limits of raycast are proper. -/
theorem mkMaxd_proper (e : EVec3) (M : ℚ) :
    EF.proper (mkMaxd e M).x ∧ EF.proper (mkMaxd e M).y ∧ EF.proper (mkMaxd e M).z :=
  ⟨min_fin_proper _ _, min_fin_proper _ _, min_fin_proper _ _⟩

/-- An axis strictly inside a finite travel limit has remaining steps. -/
theorem natSteps_pos {m tq δ : ℚ} (h : tq < m) (hδ : 0 < δ) :
    0 < natSteps (.fin m) (.fin tq) δ := by
  simp only [natSteps, if_pos h]
  have h1 : (0 : ℚ) < (m - tq) / δ := div_pos (by linarith) hδ
  have h2 := Int.ceil_pos.mpr h1
  omega

/-- Advancing the t-max by its positive delta strictly lowers the remaining
step count of that axis. -/
theorem natSteps_bump {m tq δ : ℚ} (h : tq < m) (hδ : 0 < δ) :
    natSteps (.fin m) (.fin (tq + δ)) δ < natSteps (.fin m) (.fin tq) δ := by
  have h1 : 0 < ⌈(m - tq) / δ⌉ := Int.ceil_pos.mpr (div_pos (by linarith) hδ)
  simp only [natSteps, if_pos h]
  by_cases h2 : tq + δ < m
  · rw [if_pos h2]
    have hval : (m - (tq + δ)) / δ = (m - tq) / δ - 1 := by
      field_simp
      ring
    have hceil : ⌈(m - (tq + δ)) / δ⌉ = ⌈(m - tq) / δ⌉ - 1 := by
      rw [hval, Int.ceil_sub_one]
    rw [hceil]
    omega
  · rw [if_neg h2]
    omega

/-- Each advancing iteration strictly decreases the total remaining step
count. -/
theorem fuelMeasure_decrease {P : DDAParams} {cell c2 : IVec3} {t t2 : EVec3}
    (hδx : 0 < P.delta.x) (hδy : 0 < P.delta.y) (hδz : 0 < P.delta.z)
    (hpx : EF.proper P.maxd.x) (hpy : EF.proper P.maxd.y) (hpz : EF.proper P.maxd.z)
    (htf : t.allFin) (hs : ddaStep P cell t = .cont c2 t2) :
    fuelMeasure P t2 < fuelMeasure P t := by
  unfold ddaStep at hs
  obtain ⟨hge, hc2, ht2, _⟩ := stepAxis_cont hs
  subst ht2
  obtain ⟨⟨qx, hqx⟩, ⟨qy, hqy⟩, ⟨qz, hqz⟩⟩ := htf
  cases hA : selAxis t with
  | X =>
    rw [hA] at hge
    simp only [EVec3.get, hqx] at hge
    rcases hmx : P.maxd.x with _ | _ | m | _
    · rw [hmx] at hpx; exact absurd hpx (by simp [EF.proper])
    · rw [hmx] at hge; simp [EF.ge] at hge
    · rw [hmx] at hge
      have htm : qx < m := by simpa [EF.ge] using hge
      have hb := natSteps_bump htm hδx
      simp only [fuelMeasure, bumpTmax, hqx, hqy, hqz, EF.addQ, hmx]
      omega
    · rw [hmx] at hpx; exact absurd hpx (by simp [EF.proper])
  | Y =>
    rw [hA] at hge
    simp only [EVec3.get, hqy] at hge
    rcases hmy : P.maxd.y with _ | _ | m | _
    · rw [hmy] at hpy; exact absurd hpy (by simp [EF.proper])
    · rw [hmy] at hge; simp [EF.ge] at hge
    · rw [hmy] at hge
      have htm : qy < m := by simpa [EF.ge] using hge
      have hb := natSteps_bump htm hδy
      simp only [fuelMeasure, bumpTmax, hqx, hqy, hqz, EF.addQ, hmy]
      omega
    · rw [hmy] at hpy; exact absurd hpy (by simp [EF.proper])
  | Z =>
    rw [hA] at hge
    simp only [EVec3.get, hqz] at hge
    rcases hmz : P.maxd.z with _ | _ | m | _
    · rw [hmz] at hpz; exact absurd hpz (by simp [EF.proper])
    · rw [hmz] at hge; simp [EF.ge] at hge
    · rw [hmz] at hge
      have htm : qz < m := by simpa [EF.ge] using hge
      have hb := natSteps_bump htm hδz
      simp only [fuelMeasure, bumpTmax, hqx, hqy, hqz, EF.addQ, hmz]
      omega
    · rw [hmz] at hpz; exact absurd hpz (by simp [EF.proper])

/-- With more fuel than the measure, the loop always returns. -/
theorem ddaLoop_sufficient {P : DDAParams}
    (hδx : 0 < P.delta.x) (hδy : 0 < P.delta.y) (hδz : 0 < P.delta.z)
    (hpx : EF.proper P.maxd.x) (hpy : EF.proper P.maxd.y) (hpz : EF.proper P.maxd.z) :
    ∀ (f : ℕ) (cell : IVec3) (t : EVec3), t.allFin → fuelMeasure P t < f →
      ∃ r, ddaLoop P f cell t = some r := by
  intro f
  induction f with
  | zero => intro cell t _ h; omega
  | succ n ih =>
    intro cell t htf hm
    simp only [ddaLoop]
    cases hstep : ddaStep P cell t with
    | done r => exact ⟨r, rfl⟩
    | cont c2 t2 =>
      have hdec := fuelMeasure_decrease hδx hδy hδz hpx hpy hpz htf hstep
      have ht2f : t2.allFin := by
        have hs2 := hstep
        unfold ddaStep at hs2
        obtain ⟨_, _, ht2, _⟩ := stepAxis_cont hs2
        rw [ht2]
        exact bumpTmax_allFin _ _ htf
      exact ih c2 t2 ht2f (by omega)

/-- C10: for every grid, ray and max_distance whose setup reaches the
traversal loop, the loop returns (a hit or no hit) within the computed
finite fuel bound and is unchanged by any extra fuel (so the source loop
terminates after finitely many iterations); raycast returns exactly the
loop value when neither the budget guard nor the immediate cell fires; each
advancing iteration leaves every per-axis t-max non-decreasing; and an
iteration whose selected axis has reached its travel limit exits the loop
with no hit. -/
theorem raycast_terminates (c : RaytraceChunk) (ray : Ray3) (M : ℚ) (p : PreState)
    (hpre : raycastPre ray = some p) :
    (∃ r, ddaLoop (mkParams c p M) (fuelMeasure (mkParams c p M) p.tmax + 1)
      p.cell p.tmax = some r) ∧
    (∀ f, fuelMeasure (mkParams c p M) p.tmax + 1 ≤ f →
      ddaLoop (mkParams c p M) f p.cell p.tmax =
        ddaLoop (mkParams c p M) (fuelMeasure (mkParams c p M) p.tmax + 1) p.cell p.tmax) ∧
    (∀ r, ddaLoop (mkParams c p M) (fuelMeasure (mkParams c p M) p.tmax + 1)
        p.cell p.tmax = some r →
      ¬(p.deltaMin.isSome ∧ M ≤ p.deltaAdd) → c.get p.cell.x p.cell.y p.cell.z = 0 →
      raycast c ray M = r) ∧
    (∀ cell t c2 t2, ddaStep (mkParams c p M) cell t = .cont c2 t2 →
      ∀ (A : Axis) (q q2 : ℚ), t.get A = .fin q → t2.get A = .fin q2 → q ≤ q2) ∧
    (∀ cell t, EF.ge (t.get (selAxis t)) ((mkParams c p M).maxd.get (selAxis t)) = true →
      ddaStep (mkParams c p M) cell t = .done none) := by
  obtain ⟨hδx, hδy, hδz, htf, _⟩ := raycastPre_facts hpre
  have hδx2 : 0 < (mkParams c p M).delta.x := hδx
  have hδy2 : 0 < (mkParams c p M).delta.y := hδy
  have hδz2 : 0 < (mkParams c p M).delta.z := hδz
  obtain ⟨hpx, hpy, hpz⟩ := mkMaxd_proper p.deltaMax M
  have hsuff := ddaLoop_sufficient hδx2 hδy2 hδz2 hpx hpy hpz
    (fuelMeasure (mkParams c p M) p.tmax + 1) p.cell p.tmax htf (by omega)
  obtain ⟨r0, hr0⟩ := hsuff
  refine ⟨⟨r0, hr0⟩, ?_, ?_, ?_, ?_⟩
  · intro f hf
    rw [ddaLoop_fuel_mono hr0 hf, hr0]
  · intro r hr hguard himm
    rw [raycast_eq_some hpre, if_neg hguard, if_neg (by simpa using himm), hr0]
    rw [hr0] at hr
    exact Option.some.inj hr
  · intro cell t c2 t2 hstep A q q2 hq hq2
    have hs2 := hstep
    unfold ddaStep at hs2
    obtain ⟨_, _, ht2, _⟩ := stepAxis_cont hs2
    subst ht2
    by_cases hA : A = selAxis t
    · subst hA
      rw [bumpTmax_get_self, hq] at hq2
      simp only [EF.addQ, EF.fin.injEq] at hq2
      have hδ : 0 < Vec3A.get (mkParams c p M).delta (selAxis t) := by
        cases hsel : selAxis t
        · exact hδx
        · exact hδy
        · exact hδz
      rw [← hq2]
      linarith
    · rw [bumpTmax_get_other hA, hq] at hq2
      simp only [EF.fin.injEq] at hq2
      exact le_of_eq hq2
  · intro cell t hge
    unfold ddaStep stepAxis
    rw [if_pos hge]

/-- The concrete fast-path PreState of rayInside. -/
def pInside : PreState :=
  ⟨⟨1, 1, 1⟩, none, ⟨.fin (127/2), .pinf, .pinf⟩, 0, ⟨1/2, 1/2, 1/2⟩,
   ⟨1, 2 ^ 126, 2 ^ 126⟩, ⟨.fin (1/2), .fin (2 ^ 125), .fin (2 ^ 125)⟩,
   ⟨0, 0, 0⟩, .NegX, .NegY, .NegZ⟩

/-- The setup of rayInside evaluates to pInside. -/
theorem raycastPre_rayInside : raycastPre rayInside = some pInside := by
  rw [raycastPre_inside (by norm_num [outsideBox, rayInside])]
  norm_num [insidePre, mkPre, pInside, rayInside, axisMaxIn, signumQ, EF.fdiv, calcDelta,
    calcTmax, qfract, qtrunc, sat32, minPositive, EF.addQ, faceOfStepX, faceOfStepY, faceOfStepZ]

/-- C10 witness: the termination bundle at the concrete empty-grid ray. -/
theorem raycast_terminates_witness :
    raycastPre rayInside = some pInside ∧
    ((∃ r, ddaLoop (mkParams RaytraceChunk.new pInside 1)
        (fuelMeasure (mkParams RaytraceChunk.new pInside 1) pInside.tmax + 1)
        pInside.cell pInside.tmax = some r) ∧
      (∀ f, fuelMeasure (mkParams RaytraceChunk.new pInside 1) pInside.tmax + 1 ≤ f →
        ddaLoop (mkParams RaytraceChunk.new pInside 1) f pInside.cell pInside.tmax =
          ddaLoop (mkParams RaytraceChunk.new pInside 1)
            (fuelMeasure (mkParams RaytraceChunk.new pInside 1) pInside.tmax + 1)
            pInside.cell pInside.tmax) ∧
      (∀ r, ddaLoop (mkParams RaytraceChunk.new pInside 1)
          (fuelMeasure (mkParams RaytraceChunk.new pInside 1) pInside.tmax + 1)
          pInside.cell pInside.tmax = some r →
        ¬(pInside.deltaMin.isSome ∧ (1 : ℚ) ≤ pInside.deltaAdd) →
        RaytraceChunk.new.get pInside.cell.x pInside.cell.y pInside.cell.z = 0 →
        raycast RaytraceChunk.new rayInside 1 = r) ∧
      (∀ cell t c2 t2, ddaStep (mkParams RaytraceChunk.new pInside 1) cell t = .cont c2 t2 →
        ∀ (A : Axis) (q q2 : ℚ), t.get A = .fin q → t2.get A = .fin q2 → q ≤ q2) ∧
      (∀ cell t, EF.ge (t.get (selAxis t))
          ((mkParams RaytraceChunk.new pInside 1).maxd.get (selAxis t)) = true →
        ddaStep (mkParams RaytraceChunk.new pInside 1) cell t = .done none)) :=
  ⟨raycastPre_rayInside,
   raycast_terminates RaytraceChunk.new rayInside 1 pInside raycastPre_rayInside⟩

/-! Monotonicity of the travel budget. -/

/-- Componentwise reading of mkMaxd. -/
theorem mkMaxd_get (e : EVec3) (M : ℚ) (A : Axis) :
    (mkMaxd e M).get A = EF.min (e.get A) (.fin M) := by
  cases A <;> rfl

/-- A value strictly inside a limit clamped at M stays strictly inside the
limit clamped at any larger M. -/
theorem ge_min_mono (a : EF) {M M2 : ℚ} (hM : M ≤ M2) (t : EF)
    (h : EF.ge t (EF.min a (.fin M)) = false) :
    EF.ge t (EF.min a (.fin M2)) = false := by
  have hmin : ∀ q : ℚ, Min.min q M ≤ Min.min q M2 := fun q => min_le_min le_rfl hM
  cases a <;> cases t <;>
    simp only [EF.min, EF.ge, decide_eq_false_iff_not, not_le] at h ⊢ <;>
    first
      | exact h
      | linarith [hmin 0]
      | (rename_i q tq; linarith [hmin q])
      | skip

/-- A finite distance strictly inside a limit clamped at m is below m. -/
theorem lt_of_ge_min_fin_false {d m : ℚ} {a : EF}
    (h : EF.ge (.fin d) (EF.min a (.fin m)) = false) : d < m := by
  cases a with
  | nan => simpa [EF.min, EF.ge, decide_eq_false_iff_not, not_le] using h
  | ninf => exact absurd h (by simp [EF.min, EF.ge])
  | fin q =>
    simp only [EF.min, EF.ge, decide_eq_false_iff_not, not_le] at h
    have h2 : Min.min q m ≤ m := min_le_right _ _
    linarith
  | pinf => simpa [EF.min, EF.ge, decide_eq_false_iff_not, not_le] using h

/-- Widening the travel limits preserves any hit of the loop, with the same
record and the same fuel: the wider run takes exactly the same steps. -/
theorem ddaLoop_hit_mono {c : RaytraceChunk} {st : IVec3} {fx fy fz : Face} {δ : Vec3A}
    {m1 m2 : EVec3}
    (hbound : ∀ (A : Axis) (t0 : EF), EF.ge t0 (m1.get A) = false →
      EF.ge t0 (m2.get A) = false) :
    ∀ {f cell t h}, ddaLoop ⟨c, st, fx, fy, fz, δ, m1⟩ f cell t = some (some h) →
      ddaLoop ⟨c, st, fx, fy, fz, δ, m2⟩ f cell t = some (some h) := by
  intro f
  induction f with
  | zero => intro cell t h hl; simp [ddaLoop] at hl
  | succ n ih =>
    intro cell t h hl
    simp only [ddaLoop] at hl ⊢
    cases hstep : ddaStep ⟨c, st, fx, fy, fz, δ, m1⟩ cell t with
    | done r =>
      rw [hstep] at hl
      simp only [Option.some.injEq] at hl
      subst hl
      obtain ⟨hge, hh, hid⟩ := stepAxis_done_some hstep
      dsimp only at hge hh hid
      have hg2 := hbound (selAxis t) (t.get (selAxis t)) hge
      have hstep2 : ddaStep ⟨c, st, fx, fy, fz, δ, m2⟩ cell t = .done (some h) := by
        unfold ddaStep stepAxis
        dsimp only
        rw [hg2]
        simp only [Bool.false_eq_true, if_false]
        rw [hh]
        simp only [ne_eq, hid, not_false_eq_true, if_true, StepRes.done.injEq, Option.some.injEq]
        cases selAxis t <;> rfl
      rw [hstep2]
    | cont c2 t2 =>
      rw [hstep] at hl
      obtain ⟨hge, hc2, ht2, hid0⟩ := stepAxis_cont hstep
      dsimp only at hge hc2 ht2 hid0
      have hg2 := hbound (selAxis t) (t.get (selAxis t)) hge
      have hstep2 : ddaStep ⟨c, st, fx, fy, fz, δ, m2⟩ cell t = .cont c2 t2 := by
        unfold ddaStep stepAxis
        dsimp only
        rw [hg2]
        simp only [Bool.false_eq_true, if_false]
        rw [← hc2, ← ht2]
        simp [hid0]
      rw [hstep2]
      exact ih hl

/-- C2 counterexample: a ray starting inside a solid cell yields a
zero-distance hit, and a max_distance smaller than that distance (for
example -1) does not give "no hit": the same hit is returned, because the
immediate-cell check is not guarded by the travel budget. -/
theorem raycast_budget_counterexample :
    raycast chunk0 rayInside 1 = some ⟨⟨0, 0, 0⟩, 1, none, .fin 0⟩ ∧
    (-1 : ℚ) < 0 ∧
    raycast chunk0 rayInside (-1) ≠ none := by
  have heval : ∀ M : ℚ, raycast chunk0 rayInside M = some ⟨⟨0, 0, 0⟩, 1, none, .fin 0⟩ := by
    intro M
    have hget : chunk0.get 0 0 0 = 1 := by decide
    rw [raycast_eq_some (raycastPre_inside (by norm_num [outsideBox, rayInside]))]
    norm_num [insidePre, mkPre, entryFace, rayInside, sat32, qfract, qtrunc, hget]
  refine ⟨heval 1, by norm_num, ?_⟩
  rw [heval (-1)]
  simp

/-- C2 (amended): if raycast with budget M returns a hit, then every larger
budget returns the same hit, unchanged.  If the hit carries a face, every
budget below the hit distance returns no hit; a faceless hit (the ray
started inside solid material, distance zero) is returned unchanged for
every budget, which is the one exception to the original claim. -/
theorem raycast_budget_monotone (c : RaytraceChunk) (ray : Ray3) (M : ℚ) (h : RayHit)
    (hr : raycast c ray M = some h) :
    (∀ M2, M ≤ M2 → raycast c ray M2 = some h) ∧
    (h.face = none → ∀ m : ℚ, raycast c ray m = some h) ∧
    (∀ f, h.face = some f → ∀ (m d : ℚ), h.distance = .fin d → m < d →
      raycast c ray m = none) := by
  cases hpre : raycastPre ray with
  | none =>
    rw [raycast_eq_none hpre] at hr
    exact Option.noConfusion hr
  | some p =>
    obtain ⟨hδx, hδy, hδz, htf, hcell⟩ := raycastPre_facts hpre
    rw [raycast_eq_some hpre] at hr
    by_cases hguard : p.deltaMin.isSome ∧ M ≤ p.deltaAdd
    · rw [if_pos hguard] at hr
      exact Option.noConfusion hr
    · rw [if_neg hguard] at hr
      by_cases himm : c.get p.cell.x p.cell.y p.cell.z ≠ 0
      · rw [if_pos himm] at hr
        have hh := Option.some.inj hr
        cases hdm : p.deltaMin with
        | none =>
          have hface : h.face = none := by rw [← hh]; simp [entryFace, hdm]
          refine ⟨?_, ?_, ?_⟩
          · intro M2 _
            rw [raycast_eq_some hpre, if_neg (by simp [hdm]), if_pos himm, hh]
          · intro _ m
            rw [raycast_eq_some hpre, if_neg (by simp [hdm]), if_pos himm, hh]
          · intro f hf
            rw [hface] at hf
            exact Option.noConfusion hf
        | some mins =>
          have hda : p.deltaAdd < M := by
            by_contra hcon
            exact hguard ⟨by simp [hdm], by linarith⟩
          have hdist : h.distance = .fin p.deltaAdd := by rw [← hh]
          refine ⟨?_, ?_, ?_⟩
          · intro M2 hM2
            rw [raycast_eq_some hpre, if_neg (fun hx => absurd hx.2 (by linarith)),
              if_pos himm, hh]
          · intro hface
            rw [← hh] at hface
            simp [entryFace, hdm] at hface
          · intro f hf m d hd hmd
            have hdd : p.deltaAdd = d := by
              rw [hdist] at hd
              exact (EF.fin.injEq _ _).mp hd
            rw [raycast_eq_some hpre, if_pos ⟨by simp [hdm], by linarith⟩]
      · rw [if_neg himm] at hr
        cases hloop : ddaLoop (mkParams c p M) (fuelMeasure (mkParams c p M) p.tmax + 1)
            p.cell p.tmax with
        | none =>
          rw [hloop] at hr
          exact Option.noConfusion hr
        | some r =>
          rw [hloop] at hr
          have hr2 : r = some h := hr
          subst hr2
          obtain ⟨hid_eq, hid_ne, hcoord, ⟨d0, hd0⟩, ⟨A0, hA0⟩, hfaceS⟩ :=
            ddaLoop_hit_facts hloop hcell htf
          have hd0M : d0 < M := by
            rw [hd0] at hA0
            rw [show (mkParams c p M).maxd = mkMaxd p.deltaMax M from rfl, mkMaxd_get] at hA0
            exact lt_of_ge_min_fin_false hA0
          have hboundTo : ∀ M2, M ≤ M2 → ∀ (A : Axis) (t0 : EF),
              EF.ge t0 ((mkMaxd p.deltaMax M).get A) = false →
              EF.ge t0 ((mkMaxd p.deltaMax M2).get A) = false := by
            intro M2 hM2 A t0 hge
            rw [mkMaxd_get] at hge ⊢
            exact ge_min_mono _ hM2 _ hge
          refine ⟨?_, ?_, ?_⟩
          · intro M2 hM2
            have hguard2 : ¬(p.deltaMin.isSome ∧ M2 ≤ p.deltaAdd) := by
              rintro ⟨hs, hle⟩
              exact hguard ⟨hs, by linarith⟩
            rw [raycast_eq_some hpre, if_neg hguard2, if_neg (by simpa using himm)]
            have hloopR : ddaLoop ⟨c, p.step, p.faceX, p.faceY, p.faceZ, p.delta,
                mkMaxd p.deltaMax M⟩ (fuelMeasure (mkParams c p M) p.tmax + 1)
                p.cell p.tmax = some (some h) := hloop
            have hmono : ddaLoop (mkParams c p M2) (fuelMeasure (mkParams c p M) p.tmax + 1)
                p.cell p.tmax = some (some h) :=
              ddaLoop_hit_mono (hboundTo M2 hM2) hloopR
            obtain ⟨hpx, hpy, hpz⟩ := mkMaxd_proper p.deltaMax M2
            obtain ⟨r2, hr2⟩ := ddaLoop_sufficient (P := mkParams c p M2) hδx hδy hδz
              hpx hpy hpz (fuelMeasure (mkParams c p M2) p.tmax + 1) p.cell p.tmax htf
              (by omega)
            have e1 := ddaLoop_fuel_mono hmono
              (le_max_left (fuelMeasure (mkParams c p M) p.tmax + 1)
                (fuelMeasure (mkParams c p M2) p.tmax + 1))
            have e2 := ddaLoop_fuel_mono hr2
              (le_max_right (fuelMeasure (mkParams c p M) p.tmax + 1)
                (fuelMeasure (mkParams c p M2) p.tmax + 1))
            rw [e1] at e2
            have hr2h : r2 = some h := (Option.some.inj e2).symm
            rw [hr2, hr2h]
          · intro hface
            rw [hface] at hfaceS
            simp at hfaceS
          · intro f hf m d hd hmd
            have hdd : d0 = d := by
              rw [hd0] at hd
              exact (EF.fin.injEq _ _).mp hd
            rw [raycast_eq_some hpre]
            by_cases hg : p.deltaMin.isSome ∧ m ≤ p.deltaAdd
            · rw [if_pos hg]
            · rw [if_neg hg, if_neg (by simpa using himm)]
              cases hloopm : ddaLoop (mkParams c p m)
                  (fuelMeasure (mkParams c p m) p.tmax + 1) p.cell p.tmax with
              | none => rfl
              | some rm =>
                cases rm with
                | none => rfl
                | some h2 =>
                  exfalso
                  obtain ⟨_, _, _, ⟨d2, hd2⟩, ⟨A2, hA2⟩, _⟩ :=
                    ddaLoop_hit_facts hloopm hcell htf
                  have hd2m : d2 < m := by
                    rw [hd2] at hA2
                    rw [show (mkParams c p m).maxd = mkMaxd p.deltaMax m from rfl,
                      mkMaxd_get] at hA2
                    exact lt_of_ge_min_fin_false hA2
                  have hmM : m ≤ M := by linarith
                  have hloopmR : ddaLoop ⟨c, p.step, p.faceX, p.faceY, p.faceZ, p.delta,
                      mkMaxd p.deltaMax m⟩ (fuelMeasure (mkParams c p m) p.tmax + 1)
                      p.cell p.tmax = some (some h2) := hloopm
                  have hup : ddaLoop (mkParams c p M)
                      (fuelMeasure (mkParams c p m) p.tmax + 1) p.cell p.tmax =
                      some (some h2) :=
                    ddaLoop_hit_mono (fun A t0 hge => by
                      rw [mkMaxd_get] at hge ⊢
                      exact ge_min_mono _ hmM _ hge) hloopmR
                  have e1 := ddaLoop_fuel_mono hloop
                    (le_max_left (fuelMeasure (mkParams c p M) p.tmax + 1)
                      (fuelMeasure (mkParams c p m) p.tmax + 1))
                  have e2 := ddaLoop_fuel_mono hup
                    (le_max_right (fuelMeasure (mkParams c p M) p.tmax + 1)
                      (fuelMeasure (mkParams c p m) p.tmax + 1))
                  rw [e1] at e2
                  have hh2 : h2 = h := by
                    have := Option.some.inj (Option.some.inj e2)
                    exact this.symm
                  rw [hh2] at hd2
                  rw [hd0] at hd2
                  have : d0 = d2 := (EF.fin.injEq _ _).mp hd2
                  linarith

/-- C2 witness: the budget monotonicity bundle at a concrete hit. -/
theorem raycast_budget_monotone_witness :
    raycast chunk0 rayInside 1 = some ⟨⟨0, 0, 0⟩, 1, none, .fin 0⟩ ∧
    ((∀ M2, (1 : ℚ) ≤ M2 →
        raycast chunk0 rayInside M2 = some ⟨⟨0, 0, 0⟩, 1, none, .fin 0⟩) ∧
      ((RayHit.mk ⟨0, 0, 0⟩ 1 none (.fin 0)).face = none →
        ∀ m : ℚ, raycast chunk0 rayInside m = some ⟨⟨0, 0, 0⟩, 1, none, .fin 0⟩) ∧
      (∀ f, (RayHit.mk ⟨0, 0, 0⟩ 1 none (.fin 0)).face = some f →
        ∀ (m d : ℚ), (RayHit.mk ⟨0, 0, 0⟩ 1 none (.fin 0)).distance = .fin d → m < d →
          raycast chunk0 rayInside m = none)) := by
  have hr : raycast chunk0 rayInside 1 = some ⟨⟨0, 0, 0⟩, 1, none, .fin 0⟩ := by
    have hget : chunk0.get 0 0 0 = 1 := by decide
    rw [raycast_eq_some (raycastPre_inside (by norm_num [outsideBox, rayInside]))]
    norm_num [insidePre, mkPre, entryFace, rayInside, sat32, qfract, qtrunc, hget]
  exact ⟨hr, raycast_budget_monotone chunk0 rayInside 1 _ hr⟩

/-! The single-solid-cell scenario. -/

/-- A 64 cubed grid that is all zero except a solid cell at (32, 32, 32). -/
def chunkC1 : RaytraceChunk := RaytraceChunk.new.set 32 32 32 1

/-- The ray from (32, 100, 32) aimed straight down. -/
def rayC1 : Ray3 := ⟨⟨32, 100, 32⟩, ⟨0, -1, 0⟩⟩

/-- The large x and z t-max values of that ray (zero direction components
divide by MIN_POSITIVE). -/
def tbC1 : EF := .fin (2 ^ 126 + 3600001 / 100000)

/-- The concrete clip-path PreState of rayC1: entry at t = 36, penetration
pushes the working origin to y = 63.99999, the starting cell is
(32, 63, 32), and the y t-max is exactly 37. -/
def pC1 : PreState :=
  ⟨⟨1, -1, 1⟩, some ⟨.ninf, .fin 36, .ninf⟩, ⟨.pinf, .fin 100, .pinf⟩,
   3600001 / 100000, ⟨32, 6399999 / 100000, 32⟩, ⟨2 ^ 126, 1, 2 ^ 126⟩,
   ⟨tbC1, .fin 37, tbC1⟩, ⟨32, 63, 32⟩, .NegX, .PosY, .NegZ⟩

/-- The setup of rayC1 evaluates to pC1. -/
theorem raycastPre_rayC1 : raycastPre rayC1 = some pC1 := by
  norm_num [raycastPre, outsideBox, pointsAway, signumQ, axisMinMax, EF.fdiv, EF.max, EF.min,
    EF.ge, mkPre, calcDelta, calcTmax, qfract, qtrunc, minPositive, sat32, rayPenetration,
    EF.addQ, faceOfStepX, faceOfStepY, faceOfStepZ, rayC1, pC1, tbC1]

/-- The single-cell grid read along the ray column. -/
theorem chunkC1_get_column (y : ℤ) (h1 : 0 ≤ y) (h2 : y < 64) :
    chunkC1.get 32 y 32 = if y = 32 then 1 else 0 := by
  interval_cases y <;> decide

/-- The traversal on the single-cell grid: from any cell (32, 32+j, 32) of
the descending column with the matching y t-max 68 - j, the loop reaches the
solid cell (32, 32, 32) and reports the hit at distance 67 on face PosY. -/
theorem loopC1 : ∀ j : ℕ, 1 ≤ j → j ≤ 31 →
    ddaLoop (mkParams chunkC1 pC1 200) (j + 33) ⟨32, 32 + (j : ℤ), 32⟩
      ⟨tbC1, .fin (68 - (j : ℚ)), tbC1⟩ =
    some (some ⟨⟨32, 32, 32⟩, 1, some Face.PosY, .fin 67⟩) := by
  intro j
  induction j with
  | zero => intro h1 _; omega
  | succ n ih =>
    intro _ h31
    have hbig : (67 : ℚ) < 2 ^ 126 + 3600001 / 100000 := by norm_num
    have hjq : (0 : ℚ) ≤ (n : ℚ) := Nat.cast_nonneg n
    have hb1 : ¬((2 : ℚ) ^ 126 + 3600001 / 100000 ≤ 68 - ((n : ℚ) + 1)) := by
      intro hle
      have : (68 : ℚ) - ((n : ℚ) + 1) ≤ 67 := by linarith
      linarith
    have hb2 : (68 : ℚ) - ((n : ℚ) + 1) ≤ 2 ^ 126 + 3600001 / 100000 := by
      have : (68 : ℚ) - ((n : ℚ) + 1) ≤ 67 := by linarith
      linarith
    have hsel : selAxis ⟨tbC1, .fin (68 - ((n : ℚ) + 1)), tbC1⟩ = .Y := by
      simp [selAxis, tbC1, EF.le, hb1, hb2]
    have hnz : (n : ℤ) ≤ 30 := by exact_mod_cast Nat.lt_succ_iff.mp (by omega)
    have hguardY : EF.ge ((⟨tbC1, .fin (68 - ((n : ℚ) + 1)), tbC1⟩ : EVec3).get .Y)
        ((mkParams chunkC1 pC1 200).maxd.get .Y) = false := by
      have hlt : ¬((100 : ℚ) ≤ 68 - ((n : ℚ) + 1)) := by
        intro hle
        linarith
      simp [EVec3.get, mkParams, mkMaxd, pC1, EF.min, EF.ge, hlt]
      linarith
    have hwrap : wrap32 (32 + ((n : ℤ) + 1) + -1) = 32 + (n : ℤ) := by
      rw [show 32 + ((n : ℤ) + 1) + -1 = 32 + (n : ℤ) by ring]
      exact wrap32_eq (by omega) (by omega)
    have hcast : (68 : ℚ) - ((n : ℚ) + 1) + 1 = 68 - (n : ℚ) := by ring
    have hstep : ddaStep (mkParams chunkC1 pC1 200) ⟨32, 32 + ((n : ℤ) + 1), 32⟩
        ⟨tbC1, .fin (68 - ((n : ℚ) + 1)), tbC1⟩ =
        (if 1 ≤ n then
          .cont ⟨32, 32 + (n : ℤ), 32⟩ ⟨tbC1, .fin (68 - (n : ℚ)), tbC1⟩
        else
          .done (some ⟨⟨32, 32, 32⟩, 1, some Face.PosY, .fin 67⟩)) := by
      rw [ddaStep, hsel]
      unfold stepAxis
      rw [hguardY]
      simp only [Bool.false_eq_true, if_false]
      have hcell2 : stepCellOn (mkParams chunkC1 pC1 200).step
          ⟨32, 32 + ((n : ℤ) + 1), 32⟩ .Y = ⟨32, 32 + (n : ℤ), 32⟩ := by
        simp only [stepCellOn, mkParams, pC1]
        rw [show (32 : ℤ) + ((n : ℤ) + 1) + (-1) = 32 + ((n : ℤ) + 1) + -1 by ring, hwrap]
      rw [hcell2]
      by_cases hn1 : 1 ≤ n
      · rw [if_pos hn1]
        have hget : (mkParams chunkC1 pC1 200).chunk.get 32 (32 + (n : ℤ)) 32 = 0 := by
          have := chunkC1_get_column (32 + (n : ℤ)) (by omega) (by omega)
          rw [if_neg (by omega)] at this
          exact this
        rw [hget]
        simp only [ne_eq, not_true_eq_false, if_false]
        simp [bumpTmax, mkParams, pC1, EVec3.get, EF.addQ, tbC1, hcast]
      · rw [if_neg hn1]
        have hn0 : n = 0 := by omega
        subst hn0
        have hget : chunkC1.get 32 32 32 = 1 := by decide
        norm_num [hget, RayHit.hitFace, EVec3.get, mkParams, pC1, DDAParams.face]
    rw [show ((n + 1 : ℕ) : ℤ) = (n : ℤ) + 1 from by push_cast; ring]
    rw [show ((n + 1 : ℕ) : ℚ) = (n : ℚ) + 1 from by push_cast; ring]
    show ddaLoop (mkParams chunkC1 pC1 200) ((n + 33) + 1) ⟨32, 32 + ((n : ℤ) + 1), 32⟩
      ⟨tbC1, .fin (68 - ((n : ℚ) + 1)), tbC1⟩ = _
    simp only [ddaLoop]
    rw [hstep]
    by_cases hn1 : 1 ≤ n
    · rw [if_pos hn1]
      exact ih hn1 (by omega)
    · rw [if_neg hn1]

/-- The loop fuel of the single-cell scenario evaluates to 64. -/
theorem fuelC1 : fuelMeasure (mkParams chunkC1 pC1 200) pC1.tmax + 1 = 64 := by
  norm_num [fuelMeasure, natSteps, mkParams, mkMaxd, pC1, tbC1, EF.min]
  omega

/-- C1: on the 64 cubed grid whose only solid cell is (32, 32, 32), the ray
from (32, 100, 32) pointing straight down with max_distance 200 hits
coordinate (32, 32, 32) on face PosY, at a distance within 1e-3 of 67
measured from the original unclipped origin (the model distance is exactly
67). -/
theorem raycast_single_cell :
    (raycast chunkC1 rayC1 200).elim False (fun h =>
      h.coord = ⟨32, 32, 32⟩ ∧ h.face = some Face.PosY ∧
      ∃ d : ℚ, h.distance = .fin d ∧ |d - 67| ≤ 1 / 1000) := by
  have hget63 : chunkC1.get 32 63 32 = 0 := by decide
  have h31 := loopC1 31 (by norm_num) (by norm_num)
  norm_num at h31
  have heval : raycast chunkC1 rayC1 200 =
      some ⟨⟨32, 32, 32⟩, 1, some Face.PosY, .fin 67⟩ := by
    rw [raycast_eq_some raycastPre_rayC1, if_neg (by norm_num [pC1]),
      if_neg (by simp [pC1, hget63]), fuelC1]
    rw [show pC1.cell = ⟨32, 63, 32⟩ from rfl, show pC1.tmax = ⟨tbC1, .fin 37, tbC1⟩ from rfl]
    rw [h31]
  rw [heval]
  exact ⟨rfl, rfl, 67, rfl, by norm_num⟩
